import Mathlib

/-!
Verification of the grok pattern expander/compiler (src/src/lib.rs).

The working regex string is modeled as `List Char`.  The placeholder
meta-regex `GROK_PATTERN` is embedded as a deterministic recursive-descent
scanner (`findPH`): for this particular regex, leftmost-first matching with
greedy character-class repetitions admits no productive backtracking (each
class run is maximal and every shorter run provably fails), so the scanner
below computes exactly the match and capture groups the engine produces.
Rust `BTreeMap` is modeled as a sorted association list (`mapInsert`,
`lookupMap`); `str::matches(..).count()` as `countOccs` and
`str::replacen(.., 1)` as `replaceFirst`.  The expansion `while` loop of
`Grok::compile` becomes `expandLoop`, driven by the iteration counter as
structural fuel.  The external regex engine (the `regex` crate) is out of
scope per the spec; `Pattern::new`'s engine compilation is modeled as
accepting, and engine-side observations (total group count for
`Matches::len`) are modeled from the spec's engine contract where a claim
needs them.  `ExpState` carries two ghost fields (`inlines`,
`aliasedProcessed`) that record observations of the run and influence no
computed value.
-/

set_option autoImplicit false

namespace Grok

/-- The placeholder meta-regex from the source, for reference
(braces written as escapes). -/
def GROK_PATTERN : String :=
  "%\\\x7b(?P<name>(?P<pattern>[A-z0-9]+)(?::(?P<alias>[A-z0-9_:;/\\s\\.]+))?)(?:=(?P<definition>(?:(?:[^\x7b\x7d]+|\\.+)+)+))?\\\x7d"

/-- The character class `[A-z0-9]` of the `pattern` group: the ASCII range
from `A` to `z` (which also contains the six punctuation characters between
`Z` and `a`) plus the digits. -/
def isPatternChar (c : Char) : Bool :=
  ('A' ≤ c && c ≤ 'z') || ('0' ≤ c && c ≤ '9')

/-- The `\s` class (ASCII whitespace). -/
def isSpaceChar (c : Char) : Bool :=
  c = ' ' || c = '\t' || c = '\n' || c = '\x0b' || c = '\x0c' || c = '\x0d'

/-- The character class `[A-z0-9_:;/\s\.]` of the `alias` group. -/
def isAliasChar (c : Char) : Bool :=
  isPatternChar c || c = '_' || c = ':' || c = ';' || c = '/' || isSpaceChar c || c = '.'

/-- The character class `[^{}]` of the `definition` group. -/
def isDefChar (c : Char) : Bool :=
  !(c = '\x7b' || c = '\x7d')

/-- One placeholder match: the `pattern`, `alias` and `definition`
capture groups of the meta-regex. -/
structure PH where
  pattern : String
  aliasOpt : Option String
  defOpt : Option String
deriving DecidableEq

/-- The `(?:=(?P<definition>[^{}]+))?\}` tail of the meta-regex, entered with
the characters following the literal `=`: a nonempty run of `[^{}]` must be
followed by the closing brace (a shorter run would face a non-brace
character, so greedy matching admits no successful backtrack here). -/
def parseDefPart (pat : List Char) (al : Option (List Char)) (r : List Char) :
    Option (PH × List Char) :=
  match r.takeWhile isDefChar, r.dropWhile isDefChar with
  | d₀ :: d', '\x7d' :: rem =>
    some (⟨pat.asString, al.map List.asString, some ((d₀ :: d').asString)⟩, rem)
  | _, _ => none

/-- The `(?::(?P<alias>[A-z0-9_:;/\s\.]+))?` part, entered with the
characters following the literal `:`: a nonempty maximal alias-class run
must be followed by `}` or by an inline definition (the alias class excludes
both `}` and `=`, so shorter runs fail and no backtrack succeeds). -/
def parseAliasPart (pat : List Char) (r : List Char) : Option (PH × List Char) :=
  match r.takeWhile isAliasChar, r.dropWhile isAliasChar with
  | a₀ :: a', '\x7d' :: rem => some (⟨pat.asString, some ((a₀ :: a').asString), none⟩, rem)
  | a₀ :: a', '=' :: r2 => parseDefPart pat (some (a₀ :: a')) r2
  | _, _ => none

/-- Attempt to match the meta-regex tail (everything after the literal `%`
and opening brace) at the start of `cs`: a nonempty maximal `[A-z0-9]` run
(the `pattern` group) followed by `}`, an alias part, or an inline
definition.  Returns the capture groups and the characters remaining after
the closing brace. -/
def parseAfterBrace (cs : List Char) : Option (PH × List Char) :=
  match cs.takeWhile isPatternChar, cs.dropWhile isPatternChar with
  | p₀ :: p', '\x7d' :: rem => some (⟨(p₀ :: p').asString, none, none⟩, rem)
  | p₀ :: p', '=' :: r2 => parseDefPart (p₀ :: p') none r2
  | p₀ :: p', ':' :: r2 => parseAliasPart (p₀ :: p') r2
  | _, _ => none

/-- `grok_regex.captures(s)`: the leftmost match of the meta-regex in `s`.
The scan tries every position in order; a match can only start at a `%`
followed by the opening brace. -/
def findPH : List Char → Option PH
  | [] => none
  | '%' :: rest =>
    match rest with
    | '\x7b' :: rest2 =>
      match parseAfterBrace rest2 with
      | some (ph, _) => some ph
      | none => findPH rest
    | _ => findPH rest
  | _ :: rest => findPH rest

/-- Dropping a class run never lengthens a list. -/
theorem length_dropWhile_le (p : Char → Bool) (l : List Char) :
    (l.dropWhile p).length ≤ l.length := by
  induction l with
  | nil => simp
  | cons c t ih =>
    rw [List.dropWhile_cons]
    split
    · exact Nat.le_succ_of_le ih
    · simp

/-- Skipping a maximal class run and one following character loses length. -/
theorem dropWhile_cons_length {p : Char → Bool} {cs r : List Char} {c : Char}
    (h : cs.dropWhile p = c :: r) : r.length < cs.length := by
  have h1 : (cs.dropWhile p).length ≤ cs.length := length_dropWhile_le p cs
  rw [h] at h1
  simp only [List.length_cons] at h1
  omega

/-- A successful `parseDefPart` consumes at least one character of `r`. -/
theorem parseDefPart_rem_length {pat r rem : List Char} {al : Option (List Char)}
    {ph : PH} (h : parseDefPart pat al r = some (ph, rem)) : rem.length < r.length := by
  rw [parseDefPart] at h
  split at h
  · rename_i d0 d' rem' htake hdrop
    injection h with h'
    injection h' with h1 h2
    subst h2
    exact dropWhile_cons_length hdrop
  · exact absurd h (by simp)

/-- A successful `parseAliasPart` consumes at least one character of `r`. -/
theorem parseAliasPart_rem_length {pat r rem : List Char} {ph : PH}
    (h : parseAliasPart pat r = some (ph, rem)) : rem.length < r.length := by
  rw [parseAliasPart] at h
  split at h
  · rename_i a0 a' rem' htake hdrop
    injection h with h'
    injection h' with h1 h2
    subst h2
    exact dropWhile_cons_length hdrop
  · rename_i a0 a' r2 htake hdrop
    have h1 := parseDefPart_rem_length h
    have h2 := dropWhile_cons_length hdrop
    omega
  · exact absurd h (by simp)

/-- A successful `parseAfterBrace` consumes at least one character. -/
theorem parseAfterBrace_rem_length {cs rem : List Char} {ph : PH}
    (h : parseAfterBrace cs = some (ph, rem)) : rem.length < cs.length := by
  rw [parseAfterBrace] at h
  split at h
  · rename_i p0 p' rem' htake hdrop
    injection h with h'
    injection h' with h1 h2
    subst h2
    exact dropWhile_cons_length hdrop
  · rename_i p0 p' r2 htake hdrop
    have h1 := parseDefPart_rem_length h
    have h2 := dropWhile_cons_length hdrop
    omega
  · rename_i p0 p' r2 htake hdrop
    have h1 := parseAliasPart_rem_length h
    have h2 := dropWhile_cons_length hdrop
    omega
  · exact absurd h (by simp)

/-- `find_iter` of the meta-regex: all (leftmost, non-overlapping) matches,
each scan resuming after the end of the previous match. -/
def scanPHFuel : Nat → List Char → List PH
  | _, [] => []
  | 0, _ => []
  | fuel + 1, '%' :: rest =>
    match rest with
    | '\x7b' :: rest2 =>
      match parseAfterBrace rest2 with
      | some (ph, rem) => ph :: scanPHFuel fuel rem
      | none => scanPHFuel fuel ('\x7b' :: rest2)
    | _ => scanPHFuel fuel rest
  | fuel + 1, _ :: rest => scanPHFuel fuel rest

def scanPH (cs : List Char) : List PH := scanPHFuel cs.length cs

/-- Lexicographic order on character lists: the order `BTreeMap<String, _>`
sorts its keys by (byte order on UTF-8 equals code-point order). -/
def charListLt : List Char → List Char → Bool
  | [], [] => false
  | [], _ :: _ => true
  | _ :: _, [] => false
  | a :: as, b :: bs =>
    if a < b then true
    else if b < a then false
    else charListLt as bs

/-- Lexicographic order on strings. -/
def strLt (a b : String) : Bool := charListLt a.data b.data

/-- `BTreeMap::get`. -/
def lookupMap : List (String × String) → String → Option String
  | [], _ => none
  | (k', v') :: t, k => if k = k' then some v' else lookupMap t k

/-- `BTreeMap::insert`: the map is kept as a strictly key-sorted association
list, the canonical form a `BTreeMap`'s entry sequence always has. -/
def mapInsert : List (String × String) → String → String → List (String × String)
  | [], k, v => [(k, v)]
  | (k', v') :: t, k, v =>
    if strLt k k' then (k, v) :: (k', v') :: t
    else if k = k' then (k, v) :: t
    else (k', v') :: mapInsert t k v

/-- Strict sortedness by key: the invariant of `BTreeMap` entry sequences. -/
def sortedKeys (m : List (String × String)) : Prop :=
  m.Pairwise (fun a b => strLt a.1 b.1 = true)

/-- The error enum of the library (the hidden `__Nonexhaustive` variant is
unconstructible and therefore omitted). -/
inductive Error where
  | RecursionTooDeep
  | CompiledPatternIsEmpty (pattern : String)
  | DefinitionNotFound (name : String)
  | RegexCompilationFailed (regex : String)
  | GenericCompilationFailure (description : String)
deriving DecidableEq

deriving instance DecidableEq for Except

/-- Scanning core of `str::matches(key).count()`, driven by a character
budget so that the recursion is structural (every step consumes at least
one character, so a budget of the string's length is exact). -/
def countOccsFuel (k : Char) (ks : List Char) : Nat → List Char → Nat
  | _, [] => 0
  | 0, _ => 0
  | fuel + 1, c :: rest =>
    if (k :: ks).isPrefixOf (c :: rest) then
      1 + countOccsFuel k ks fuel (rest.drop ks.length)
    else countOccsFuel k ks fuel rest

/-- `str::matches(key).count()`: non-overlapping occurrences of `key`,
scanning left to right and skipping each match. -/
def countOccs (key s : List Char) : Nat :=
  match key with
  | [] => 0
  | k :: ks => countOccsFuel k ks s.length s

/-- `str::replacen(key, repl, 1)`: replace the first occurrence of `key`. -/
def replaceFirst (key repl : List Char) : List Char → List Char
  | [] => []
  | c :: rest =>
    if key.isPrefixOf (c :: rest) then repl ++ (c :: rest).drop key.length
    else c :: replaceFirst key repl rest

/-- The textual key of a placeholder: the `name` capture group, extended with
`=definition` when an inline definition is present (`name` is reassigned in
the source at that point). -/
def PH.fullName (ph : PH) : String :=
  ph.pattern
    ++ (match ph.aliasOpt with | some a => ":" ++ a | none => "")
    ++ (match ph.defOpt with | some d => "=" ++ d | none => "")

/-- `format!("%{{{}}}", name)`. -/
def keyList (fullName : String) : List Char :=
  '%' :: '\x7b' :: (fullName.data ++ ['\x7d'])

/-- `format!("(?P<name{}>{})", index, definition)`. -/
def namedWrap (i : Nat) (d : String) : List Char :=
  ("(?P<name" ++ Nat.repr i ++ ">" ++ d ++ ")").data

/-- `format!("(?:{})", definition)`. -/
def anonWrap (d : String) : List Char :=
  ("(?:" ++ d ++ ")").data

/-- The expander's mutable state.  `namedRegex`, `alias`, `index` and `defs`
mirror the source's locals and `self.definitions`; `inlines` and
`aliasedProcessed` are ghost observations (the processed inline definitions
in order, and the number of processed alias-carrying occurrences) that no
computed field depends on. -/
structure ExpState where
  namedRegex : List Char
  aliasMap : List (String × String)
  index : Nat
  defs : List (String × String)
  inlines : List (String × String)
  aliasedProcessed : Nat
deriving DecidableEq

/-- The inline-definition branch: `self.insert_definition(raw, definition)`
and the reassignment of `name` (reflected in `PH.fullName`). -/
def applyInline (ph : PH) (st : ExpState) : ExpState :=
  match ph.defOpt with
  | some d =>
    { st with defs := mapInsert st.defs ph.pattern d,
              inlines := st.inlines ++ [(ph.pattern, d)] }
  | none => st

/-- The replacement fragment chosen for one occurrence: non-capturing under
suppression without an alias, named capture otherwise. -/
def replacementOf (withAliasOnly : Bool) (ph : PH) (i : Nat) (d : String) : List Char :=
  if withAliasOnly && ph.aliasOpt.isNone then anonWrap d else namedWrap i d

/-- The user-visible alias-map key for one occurrence: the alias if present,
else the (possibly `=`-extended) textual name. -/
def userKey (ph : PH) : String :=
  match ph.aliasOpt with
  | some a => a
  | none => ph.fullName

/-- The body of one iteration of the `for _ in 0..count` loop, after the
definition lookup succeeded with body `d`: insert the alias entry, replace
the first remaining occurrence of the key, bump the index. -/
def innerStep (withAliasOnly : Bool) (ph : PH) (key : List Char) (d : String)
    (st : ExpState) : ExpState :=
  { st with
    namedRegex := replaceFirst key (replacementOf withAliasOnly ph st.index d) st.namedRegex,
    aliasMap := mapInsert st.aliasMap (userKey ph) ("name" ++ Nat.repr st.index),
    index := st.index + 1,
    aliasedProcessed := st.aliasedProcessed + (if ph.aliasOpt.isSome then 1 else 0) }

/-- The `for _ in 0..count` loop of `Grok::compile`: each iteration looks up
the definition (failing fast with `DefinitionNotFound`) and applies
`innerStep`. -/
def innerLoop (withAliasOnly : Bool) (ph : PH) (key : List Char) :
    Nat → ExpState → ExpState × Option Error
  | 0, st => (st, none)
  | n + 1, st =>
    match lookupMap st.defs ph.pattern with
    | none => (st, some (Error.DefinitionNotFound ph.pattern))
    | some d => innerLoop withAliasOnly ph key n (innerStep withAliasOnly ph key d st)

/-- The `while continue_iteration` loop, with the remaining-iterations
counter as fuel: a pass first checks the counter, then searches for the
leftmost placeholder; no match ends the loop, a match is processed by the
inner loop and the next pass runs on the updated state. -/
def expandLoop (withAliasOnly : Bool) : Nat → ExpState → ExpState × Option Error
  | 0, st => (st, some Error.RecursionTooDeep)
  | fuel + 1, st =>
    match findPH st.namedRegex with
    | none => (st, none)
    | some ph =>
      let st1 := applyInline ph st
      let key := keyList ph.fullName
      match innerLoop withAliasOnly ph key (countOccs key st1.namedRegex) st1 with
      | (st2, some e) => (st2, some e)
      | (st2, none) => expandLoop withAliasOnly fuel st2

def MAX_RECURSION : Nat := 1024

def initState (defs : List (String × String)) (pattern : String) : ExpState :=
  ⟨pattern.data, [], 0, defs, [], 0⟩

/-- `Grok::compile` up to the external engine boundary: the expansion loop
followed by the emptiness check.  The final `Regex::new` of `Pattern::new`
belongs to the out-of-scope engine and is modeled as accepting; the first
component carries the full final state (including `self.definitions`). -/
def compileFull (defs : List (String × String)) (pattern : String)
    (withAliasOnly : Bool) : ExpState × Option Error :=
  match expandLoop withAliasOnly MAX_RECURSION (initState defs pattern) with
  | (st, some e) => (st, some e)
  | (st, none) =>
    if st.namedRegex.isEmpty then (st, some (Error.CompiledPatternIsEmpty pattern))
    else (st, none)

/-- The `Result<Pattern, Error>` view of `Grok::compile`: the flat regex and
the alias map on success, the error otherwise. -/
def compile (defs : List (String × String)) (pattern : String)
    (withAliasOnly : Bool) : Except Error (List Char × List (String × String)) :=
  match compileFull defs pattern withAliasOnly with
  | (st, none) => Except.ok (st.namedRegex, st.aliasMap)
  | (_, some e) => Except.error e

/-- `Matches::get`: look the user name up in the alias map, then fetch the
named capture from the engine's captures (the engine's named-capture lookup
is the abstract function `captures`). -/
def Matches.get (aliasMap : List (String × String)) (captures : String → Option String)
    (nameOrAlias : String) : Option String :=
  match lookupMap aliasMap nameOrAlias with
  | some real => captures real
  | none => none

/-- Whether a capture group opens at the head of the string: a `(` not
followed by `?`, or the named form `(?P<`.  Supporting definition for the
engine's group count (escapes and character classes are not interpreted;
the inputs this development evaluates it on contain neither). -/
def groupOpensAt (l : List Char) : Nat :=
  if ['(', '?', 'P', '<'].isPrefixOf l then 1
  else if ['(', '?'].isPrefixOf l then 0
  else if ['('].isPrefixOf l then 1
  else 0

/-- Number of capture groups of a regex string: sum of `groupOpensAt` over
all suffixes. -/
def groupCount : List Char → Nat
  | [] => 0
  | c :: rest => groupOpensAt (c :: rest) + groupCount rest

/-- Modelled from the spec: the engine's "report of total group count" for a
compiled regex (§6), which counts the implicit whole-match group plus every
capture group of the regex string.  The engine itself is an out-of-scope
external collaborator. -/
def engineGroupCount (flat : List Char) : Nat :=
  1 + groupCount flat

/-- `Matches::len`: `self.captures.len() - 1` — the engine's total group
count minus the whole-match group. -/
def matchesLen (flat : List Char) : Nat :=
  engineGroupCount flat - 1

/-- The number of alias-carrying placeholders of a pattern string, read off
with the meta-regex scanner (used to state the spec's suppression-mode
property). -/
def aliasedCount (pattern : String) : Nat :=
  (scanPH pattern.data).countP (fun ph => ph.aliasOpt.isSome)

/-- Everything before a closing `>`. -/
def beforeGt (c : Char) : Bool := c ≠ '>'

/-- Scanning core of `captureNames`, driven by a character budget so that
the recursion is structural. -/
def captureNamesFuel : Nat → List Char → List String
  | _, [] => []
  | 0, _ => []
  | fuel + 1, '(' :: '?' :: 'P' :: '<' :: rest =>
    (rest.takeWhile beforeGt).asString :: captureNamesFuel fuel (rest.dropWhile beforeGt)
  | fuel + 1, _ :: rest => captureNamesFuel fuel rest

/-- The named-capture group names opened in a regex string: the text between
each `(?P<` opening and the following `>`. -/
def captureNames (cs : List Char) : List String := captureNamesFuel cs.length cs

/-- The text `(?P<v>` that opens a named capture group `v`. -/
def grpText (v : String) : List Char :=
  ("(?P<" ++ v ++ ">").data

/-- `key` occurs as a contiguous substring. -/
def occursIn (key s : List Char) : Prop :=
  ∃ a b, s = a ++ key ++ b

/-! ### Substring toolkit -/

theorem isPrefixOf_iff_exists {key s : List Char} :
    key.isPrefixOf s = true ↔ ∃ t, s = key ++ t := by
  rw [List.isPrefixOf_iff_prefix]
  constructor
  · rintro ⟨t, rfl⟩
    exact ⟨t, rfl⟩
  · rintro ⟨t, rfl⟩
    exact ⟨t, rfl⟩

/-- Splitting a prefix of an append: it stays inside the left part or covers
it with a nonempty remainder reaching into the right part. -/
theorem prefix_append_split {key u v : List Char} (h : key <+: u ++ v) :
    key <+: u ∨ ∃ w, key = u ++ w ∧ w <+: v := by
  obtain ⟨t, ht⟩ := h
  rcases List.append_eq_append_iff.1 ht with ⟨a', ha, _⟩ | ⟨c', hc, hv⟩
  · exact Or.inl ⟨a', ha.symm⟩
  · exact Or.inr ⟨c', hc, ⟨t, hv.symm⟩⟩

/-- No occurrence of `key` starts strictly inside `a` when `a` is followed
by `b`: the scanning functions walk `a` without a match. -/
def noMatchBefore (key a b : List Char) : Prop :=
  ∀ a₁ a₂, a = a₁ ++ a₂ → a₂ ≠ [] → ¬ key.isPrefixOf (a₂ ++ b) = true

theorem noMatchBefore_nil (key b : List Char) : noMatchBefore key [] b := by
  intro a₁ a₂ ha hne
  exact absurd (List.append_eq_nil.1 ha.symm).2 hne

theorem noMatchBefore_cons {key a b : List Char} {c : Char}
    (h₁ : ¬ key.isPrefixOf ((c :: a) ++ b) = true) (h₂ : noMatchBefore key a b) :
    noMatchBefore key (c :: a) b := by
  intro a₁ a₂ ha hne
  cases a₁ with
  | nil =>
    simp only [List.nil_append] at ha
    subst ha
    exact h₁
  | cons c₁ t₁ =>
    injection ha with hc ht
    exact h₂ t₁ a₂ ht hne

/-- Heads that can never start `key` make a clean stretch. -/
theorem noMatchBefore_of_head_ne {k : Char} {ks a b : List Char}
    (h : ∀ c ∈ a, c ≠ k) : noMatchBefore (k :: ks) a b := by
  induction a with
  | nil => exact noMatchBefore_nil _ _
  | cons c t ih =>
    refine noMatchBefore_cons ?_ (ih fun c hc => h c (List.mem_cons_of_mem _ hc))
    intro hpre
    rw [List.isPrefixOf_iff_prefix, List.cons_append, List.cons_prefix_cons] at hpre
    exact h c (List.mem_cons_self c t) hpre.1.symm

/-- A clean stretch stays clean when the continuation is exchanged for one
whose head cannot occur in `key`. -/
theorem noMatchBefore_switch {key a X b Y' : List Char} {y0 : Char}
    (hnm : noMatchBefore key a (X ++ b)) (hy : y0 ∉ key) :
    noMatchBefore key a ((y0 :: Y') ++ b) := by
  intro a₁ a₂ ha hne hpre
  rw [List.isPrefixOf_iff_prefix] at hpre
  rcases prefix_append_split hpre with hin | ⟨w, hw, hwpre⟩
  · refine hnm a₁ a₂ ha hne ?_
    rw [List.isPrefixOf_iff_prefix]
    exact hin.trans (List.prefix_append a₂ (X ++ b))
  · cases w with
    | nil =>
      rw [List.append_nil] at hw
      refine hnm a₁ a₂ ha hne ?_
      rw [List.isPrefixOf_iff_prefix]
      exact ⟨X ++ b, by rw [hw]⟩
    | cons w0 w' =>
      obtain ⟨t, ht⟩ := hwpre
      have hw0 : w0 = y0 := by
        have h2 : w0 :: (w' ++ t) = y0 :: (Y' ++ b) := by simpa using ht
        exact (List.cons_eq_cons.1 h2).1
      refine hy ?_
      rw [hw, ← hw0]
      exact List.mem_append.2 (Or.inr (List.mem_cons_self w0 w'))

theorem countOccs_nil (key : List Char) : countOccs key [] = 0 := by
  cases key <;> rfl

/-- The character budget does not matter once it covers the string. -/
theorem countOccsFuel_congr (k : Char) (ks : List Char) :
    ∀ (f₁ : Nat) (s : List Char) (f₂ : Nat), s.length ≤ f₁ → s.length ≤ f₂ →
      countOccsFuel k ks f₁ s = countOccsFuel k ks f₂ s := by
  intro f₁
  induction f₁ with
  | zero =>
    intro s f₂ h₁ h₂
    have hs : s = [] := List.eq_nil_of_length_eq_zero (Nat.le_zero.1 h₁)
    subst hs
    cases f₂ <;> rfl
  | succ f₁ ih =>
    intro s f₂ h₁ h₂
    cases s with
    | nil => cases f₂ <;> rfl
    | cons c rest =>
      cases f₂ with
      | zero => simp at h₂
      | succ f₂ =>
        rw [countOccsFuel, countOccsFuel]
        by_cases hp : (k :: ks).isPrefixOf (c :: rest) = true
        · rw [if_pos hp, if_pos hp]
          have hl : (rest.drop ks.length).length ≤ rest.length := by
            simp [List.length_drop]
          simp only [List.length_cons] at h₁ h₂
          rw [ih (rest.drop ks.length) f₂ (by omega) (by omega)]
        · rw [if_neg hp, if_neg hp]
          simp only [List.length_cons] at h₁ h₂
          exact ih rest f₂ (by omega) (by omega)

theorem countOccs_cons (k c : Char) (ks rest : List Char) :
    countOccs (k :: ks) (c :: rest) =
      if (k :: ks).isPrefixOf (c :: rest) then
        1 + countOccs (k :: ks) ((c :: rest).drop (k :: ks).length)
      else countOccs (k :: ks) rest := by
  show countOccsFuel k ks (rest.length + 1) (c :: rest) = _
  rw [countOccsFuel]
  by_cases hp : (k :: ks).isPrefixOf (c :: rest) = true
  · rw [if_pos hp, if_pos hp]
    have hd : (c :: rest).drop (k :: ks).length = rest.drop ks.length := rfl
    rw [hd]
    have hl : (rest.drop ks.length).length ≤ rest.length := by
      simp [List.length_drop]
    rw [countOccsFuel_congr k ks rest.length (rest.drop ks.length)
      (rest.drop ks.length).length hl (le_refl _)]
    rfl
  · rw [if_neg hp, if_neg hp]
    rfl

/-- Counting past the key itself. -/
theorem countOccs_self_append (k : Char) (ks b : List Char) :
    countOccs (k :: ks) ((k :: ks) ++ b) = 1 + countOccs (k :: ks) b := by
  have hpre : (k :: ks).isPrefixOf ((k :: ks) ++ b) = true := by
    rw [isPrefixOf_iff_exists]
    exact ⟨b, rfl⟩
  rw [List.cons_append, countOccs_cons, ← List.cons_append, if_pos hpre,
    List.drop_left]

theorem replaceFirst_cons (key repl : List Char) (c : Char) (rest : List Char) :
    replaceFirst key repl (c :: rest) =
      if key.isPrefixOf (c :: rest) then repl ++ (c :: rest).drop key.length
      else c :: replaceFirst key repl rest := rfl

/-- Counting skips a clean stretch. -/
theorem countOccs_append_of_noMatch {k : Char} {ks a b : List Char}
    (h : noMatchBefore (k :: ks) a b) :
    countOccs (k :: ks) (a ++ b) = countOccs (k :: ks) b := by
  induction a with
  | nil => rfl
  | cons c t ih =>
    have hnp : ¬ (k :: ks).isPrefixOf (c :: (t ++ b)) = true := by
      have := h [] (c :: t) rfl (by simp)
      simpa using this
    rw [List.cons_append, countOccs_cons, if_neg hnp]
    exact ih fun a₁ a₂ ha hne => h (c :: a₁) a₂ (by rw [ha]; rfl) hne

/-- Replacement skips a clean stretch. -/
theorem replaceFirst_append_of_noMatch {key a b repl : List Char}
    (h : noMatchBefore key a b) :
    replaceFirst key repl (a ++ b) = a ++ replaceFirst key repl b := by
  induction a with
  | nil => rfl
  | cons c t ih =>
    have hnp : ¬ key.isPrefixOf (c :: (t ++ b)) = true := by
      have := h [] (c :: t) rfl (by simp)
      simpa using this
    rw [List.cons_append, replaceFirst_cons, if_neg hnp, List.cons_append]
    congr 1
    exact ih fun a₁ a₂ ha hne => h (c :: a₁) a₂ (by rw [ha]; rfl) hne

/-- Replacement at the key itself. -/
theorem replaceFirst_self_append (k : Char) (ks b repl : List Char) :
    replaceFirst (k :: ks) repl ((k :: ks) ++ b) = repl ++ b := by
  have hpre : (k :: ks).isPrefixOf ((k :: ks) ++ b) = true := by
    rw [isPrefixOf_iff_exists]
    exact ⟨b, rfl⟩
  rw [List.cons_append, replaceFirst, ← List.cons_append, if_pos hpre,
    List.drop_left]

/-- A positive occurrence count yields the canonical decomposition at the
first occurrence: the stretch before it is clean, the count beyond it drops
by one, and `replaceFirst` rewrites exactly there. -/
theorem countOccs_succ_decomp {k : Char} {ks s : List Char} {n : Nat}
    (h : countOccs (k :: ks) s = n + 1) :
    ∃ a b, s = a ++ (k :: ks) ++ b ∧ noMatchBefore (k :: ks) a ((k :: ks) ++ b) ∧
      countOccs (k :: ks) b = n ∧
      ∀ repl, replaceFirst (k :: ks) repl s = a ++ repl ++ b := by
  induction s with
  | nil => rw [countOccs_nil] at h; omega
  | cons c rest ih =>
    rw [countOccs_cons] at h
    split at h
    · rename_i hpre
      obtain ⟨t, ht⟩ := isPrefixOf_iff_exists.1 hpre
      refine ⟨[], t, by simpa using ht, noMatchBefore_nil _ _, ?_, ?_⟩
      · rw [ht, List.drop_left] at h
        omega
      · intro repl
        rw [ht, replaceFirst_self_append]
        simp
    · rename_i hpre
      obtain ⟨a, b, hs, hnm, hcount, hrepl⟩ := ih h
      refine ⟨c :: a, b, by rw [hs]; rfl, ?_, hcount, ?_⟩
      · refine noMatchBefore_cons ?_ hnm
        intro hbad
        refine hpre ?_
        have hform : (c :: a) ++ ((k :: ks) ++ b) = c :: rest := by
          rw [hs]
          simp [List.append_assoc]
        rw [← hform]
        exact hbad
      · intro repl
        rw [replaceFirst_cons, if_neg hpre, hrepl repl]
        rfl

/-! ### Map toolkit -/

theorem charListLt_irrefl : ∀ l : List Char, charListLt l l = false := by
  intro l
  induction l with
  | nil => rfl
  | cons a as ih =>
    rw [charListLt, if_neg (lt_irrefl a), if_neg (lt_irrefl a)]
    exact ih

theorem charListLt_asymm : ∀ {l₁ l₂ : List Char}, charListLt l₁ l₂ = true →
    charListLt l₂ l₁ = true → False := by
  intro l₁
  induction l₁ with
  | nil =>
    intro l₂ h₁ h₂
    cases l₂ with
    | nil => simp [charListLt] at h₁
    | cons b bs => simp [charListLt] at h₂
  | cons a as ih =>
    intro l₂ h₁ h₂
    cases l₂ with
    | nil => simp [charListLt] at h₁
    | cons b bs =>
      rw [charListLt] at h₁ h₂
      by_cases hab : a < b
      · rw [if_neg (lt_asymm hab), if_pos hab] at h₂
        exact absurd h₂ (by simp)
      · rw [if_neg hab] at h₁
        by_cases hba : b < a
        · rw [if_pos hba] at h₁
          exact absurd h₁ (by simp)
        · rw [if_neg hba] at h₁
          rw [if_neg hba, if_neg hab] at h₂
          exact ih h₁ h₂

theorem strLt_asymm {a b : String} (h₁ : strLt a b = true) (h₂ : strLt b a = true) :
    False :=
  charListLt_asymm h₁ h₂

theorem strLt_ne {a b : String} (h : strLt a b = true) : a ≠ b := by
  intro he
  subst he
  rw [strLt, charListLt_irrefl] at h
  exact absurd h (by simp)

theorem lookupMap_mapInsert_self (m : List (String × String)) (k v : String) :
    lookupMap (mapInsert m k v) k = some v := by
  induction m with
  | nil => simp [mapInsert, lookupMap]
  | cons kv t ih =>
    obtain ⟨k', v'⟩ := kv
    simp only [mapInsert]
    split
    · simp [lookupMap]
    · split
      · simp [lookupMap]
      · rename_i hlt heq
        simp only [lookupMap, if_neg heq]
        exact ih

theorem lookupMap_mapInsert_ne (m : List (String × String)) (k v k' : String)
    (h : k' ≠ k) : lookupMap (mapInsert m k v) k' = lookupMap m k' := by
  induction m with
  | nil => simp [mapInsert, lookupMap, h]
  | cons kv t ih =>
    obtain ⟨k₀, v₀⟩ := kv
    simp only [mapInsert]
    split
    · simp [lookupMap, h]
    · split
      · rename_i hlt heq
        subst heq
        simp [lookupMap, h]
      · simp only [lookupMap]
        split
        · rfl
        · exact ih

theorem mem_mapInsert {m : List (String × String)} {k v : String}
    {kv : String × String} (h : kv ∈ mapInsert m k v) : kv = (k, v) ∨ kv ∈ m := by
  induction m with
  | nil => simpa [mapInsert] using h
  | cons kv₀ t ih =>
    obtain ⟨k₀, v₀⟩ := kv₀
    simp only [mapInsert] at h
    split at h
    · rcases List.mem_cons.1 h with h1 | h1
      · exact Or.inl h1
      · exact Or.inr h1
    · split at h
      · rcases List.mem_cons.1 h with h1 | h1
        · exact Or.inl h1
        · exact Or.inr (List.mem_cons_of_mem _ h1)
      · rcases List.mem_cons.1 h with h1 | h1
        · exact Or.inr (h1 ▸ List.mem_cons_self _ _)
        · rcases ih h1 with h2 | h2
          · exact Or.inl h2
          · exact Or.inr (List.mem_cons_of_mem _ h2)

theorem lookupMap_mem {m : List (String × String)} {k v : String}
    (h : lookupMap m k = some v) : (k, v) ∈ m := by
  induction m with
  | nil => simp [lookupMap] at h
  | cons kv t ih =>
    obtain ⟨k₀, v₀⟩ := kv
    simp only [lookupMap] at h
    split at h
    · rename_i heq
      injection h with hv
      subst heq
      subst hv
      exact List.mem_cons_self _ _
    · exact List.mem_cons_of_mem _ (ih h)

theorem lookupMap_isSome_of_mem {m : List (String × String)} {k v : String}
    (h : (k, v) ∈ m) : lookupMap m k ≠ none := by
  induction m with
  | nil => simp at h
  | cons kv t ih =>
    obtain ⟨k₀, v₀⟩ := kv
    simp only [lookupMap]
    split
    · simp
    · rename_i hne
      rcases List.mem_cons.1 h with h1 | h1
      · exact absurd (congrArg Prod.fst h1) hne
      · exact ih h1

theorem lookupMap_eq_none_of_forall {m : List (String × String)} {k : String}
    (h : ∀ kv ∈ m, kv.1 ≠ k) : lookupMap m k = none := by
  induction m with
  | nil => rfl
  | cons kv t ih =>
    obtain ⟨k₀, v₀⟩ := kv
    simp only [lookupMap]
    rw [if_neg ?_]
    · exact ih fun kv hkv => h kv (List.mem_cons_of_mem _ hkv)
    · intro heq
      exact h (k₀, v₀) (List.mem_cons_self _ _) heq.symm

/-- Two strictly key-sorted association lists with the same lookup function
are identical: `BTreeMap` equality is extensional. -/
theorem sorted_lookup_ext {m₁ m₂ : List (String × String)}
    (h₁ : sortedKeys m₁) (h₂ : sortedKeys m₂)
    (h : ∀ k, lookupMap m₁ k = lookupMap m₂ k) : m₁ = m₂ := by
  induction m₁ generalizing m₂ with
  | nil =>
    cases m₂ with
    | nil => rfl
    | cons kv t =>
      have hx := h kv.1
      simp [lookupMap] at hx
  | cons kv₁ t₁ ih =>
    obtain ⟨k₁, v₁⟩ := kv₁
    cases m₂ with
    | nil =>
      have hx := h k₁
      simp [lookupMap] at hx
    | cons kv₂ t₂ =>
      obtain ⟨k₂, v₂⟩ := kv₂
      have hs₁ := (List.pairwise_cons.1 h₁)
      have hs₂ := (List.pairwise_cons.1 h₂)
      have hk : k₁ = k₂ := by
        by_contra hne
        have ha : lookupMap ((k₂, v₂) :: t₂) k₁ = some v₁ := by
          rw [← h k₁]
          simp [lookupMap]
        have hb : lookupMap ((k₁, v₁) :: t₁) k₂ = some v₂ := by
          rw [h k₂]
          simp [lookupMap]
        simp only [lookupMap] at ha hb
        rw [if_neg hne] at ha
        rw [if_neg (fun hx => hne hx.symm)] at hb
        have hmem₁ := lookupMap_mem ha
        have hmem₂ := lookupMap_mem hb
        have hlt₁ := hs₂.1 _ hmem₁
        have hlt₂ := hs₁.1 _ hmem₂
        exact strLt_asymm hlt₁ hlt₂
      subst hk
      have hv : v₁ = v₂ := by
        have hx := h k₁
        simp [lookupMap] at hx
        exact hx
      subst hv
      have ht : t₁ = t₂ := by
        refine ih hs₁.2 hs₂.2 fun k => ?_
        by_cases hk : k = k₁
        · subst hk
          rw [lookupMap_eq_none_of_forall fun kv hkv => Ne.symm (strLt_ne (hs₁.1 kv hkv)),
            lookupMap_eq_none_of_forall fun kv hkv => Ne.symm (strLt_ne (hs₂.1 kv hkv))]
        · have hx := h k
          simp only [lookupMap] at hx
          rw [if_neg hk, if_neg hk] at hx
          exact hx
      rw [ht]

/-- Any visible occurrence makes the count positive. -/
theorem countOccs_pos {k : Char} {ks a b : List Char} :
    0 < countOccs (k :: ks) (a ++ (k :: ks) ++ b) := by
  induction a with
  | nil =>
    rw [List.nil_append, countOccs_self_append]
    omega
  | cons c t ih =>
    have hform : (c :: t) ++ (k :: ks) ++ b = c :: (t ++ (k :: ks) ++ b) := by
      simp [List.append_assoc]
    rw [hform, countOccs_cons]
    split
    · omega
    · exact ih

/-! ### Parser soundness -/

theorem data_asString (l : List Char) : (List.asString l).data = l := rfl

theorem data_colon : (":" : String).data = [':'] := rfl

theorem data_eqsign : ("=" : String).data = ['='] := rfl

theorem data_empty : ("" : String).data = [] := rfl

theorem parseDefPart_sound {pat r rem : List Char} {al : Option (List Char)}
    {ph : PH} (h : parseDefPart pat al r = some (ph, rem)) :
    ∃ d, ph = ⟨pat.asString, al.map List.asString, some (d.asString)⟩ ∧
      r = d ++ '\x7d' :: rem ∧ d ≠ [] ∧ ∀ c ∈ d, isDefChar c := by
  rw [parseDefPart] at h
  split at h
  · rename_i d0 d' rem' htake hdrop
    injection h with h'
    injection h' with h1 h2
    subst h2
    refine ⟨d0 :: d', h1.symm, ?_, by simp, ?_⟩
    · have hr := List.takeWhile_append_dropWhile isDefChar r
      rw [htake, hdrop] at hr
      exact hr.symm
    · intro c hc
      exact List.mem_takeWhile_imp (htake ▸ hc)
  · exact absurd h (by simp)

theorem parseAliasPart_sound {pat r rem : List Char} {ph : PH}
    (h : parseAliasPart pat r = some (ph, rem)) :
    ∃ a, a ≠ [] ∧ (∀ c ∈ a, isAliasChar c) ∧
      ((ph = ⟨pat.asString, some (a.asString), none⟩ ∧ r = a ++ '\x7d' :: rem) ∨
       (∃ d, ph = ⟨pat.asString, some (a.asString), some (d.asString)⟩ ∧
         d ≠ [] ∧ (∀ c ∈ d, isDefChar c) ∧ r = a ++ '=' :: (d ++ '\x7d' :: rem))) := by
  rw [parseAliasPart] at h
  split at h
  · rename_i a0 a' rem' htake hdrop
    injection h with h'
    injection h' with h1 h2
    subst h2
    refine ⟨a0 :: a', by simp, ?_, Or.inl ⟨h1.symm, ?_⟩⟩
    · intro c hc
      exact List.mem_takeWhile_imp (htake ▸ hc)
    · have hr := List.takeWhile_append_dropWhile isAliasChar r
      rw [htake, hdrop] at hr
      exact hr.symm
  · rename_i a0 a' r2 htake hdrop
    obtain ⟨d, hph, hr2, hdne, hdc⟩ := parseDefPart_sound h
    refine ⟨a0 :: a', by simp, ?_, Or.inr ⟨d, ?_, hdne, hdc, ?_⟩⟩
    · intro c hc
      exact List.mem_takeWhile_imp (htake ▸ hc)
    · rw [hph]
      rfl
    · have hr := List.takeWhile_append_dropWhile isAliasChar r
      rw [htake, hdrop, hr2] at hr
      exact hr.symm
  · exact absurd h (by simp)

/-- Everything a successful meta-regex match guarantees: the matched span is
literally `%{fullName}`, and each capture group is a nonempty run of its
character class. -/
theorem parseAfterBrace_sound {cs rem : List Char} {ph : PH}
    (h : parseAfterBrace cs = some (ph, rem)) :
    cs = ph.fullName.data ++ '\x7d' :: rem ∧
      ph.pattern.data ≠ [] ∧ (∀ c ∈ ph.pattern.data, isPatternChar c) ∧
      (∀ al, ph.aliasOpt = some al → al.data ≠ [] ∧ ∀ c ∈ al.data, isAliasChar c) ∧
      (∀ d, ph.defOpt = some d → d.data ≠ [] ∧ ∀ c ∈ d.data, isDefChar c) := by
  rw [parseAfterBrace] at h
  split at h
  · rename_i p0 p' rem' htake hdrop
    injection h with h'
    injection h' with h1 h2
    subst h2
    subst h1
    have hr := List.takeWhile_append_dropWhile isPatternChar cs
    rw [htake, hdrop] at hr
    refine ⟨?_, by simp [data_asString], ?_, by simp, by simp⟩
    · simp only [PH.fullName, String.data_append, data_asString, data_empty,
        List.append_nil]
      exact hr.symm
    · intro c hc
      rw [data_asString] at hc
      exact List.mem_takeWhile_imp (htake ▸ hc)
  · rename_i p0 p' r2 htake hdrop
    obtain ⟨d, hph, hr2, hdne, hdc⟩ := parseDefPart_sound h
    subst hph
    have hr := List.takeWhile_append_dropWhile isPatternChar cs
    rw [htake, hdrop, hr2] at hr
    refine ⟨?_, by simp [data_asString], ?_, by simp, ?_⟩
    · simp only [PH.fullName, Option.map_none', Option.map_some', data_asString,
        String.data_append, data_eqsign, data_empty, List.append_nil]
      rw [← hr]
      simp [List.append_assoc]
    · intro c hc
      rw [data_asString] at hc
      exact List.mem_takeWhile_imp (htake ▸ hc)
    · intro dd hdd
      injection hdd with hdd'
      subst hdd'
      exact ⟨by simpa [data_asString] using hdne, by simpa [data_asString] using hdc⟩
  · rename_i p0 p' r2 htake hdrop
    obtain ⟨a, hane, hac, hcase⟩ := parseAliasPart_sound h
    have hr := List.takeWhile_append_dropWhile isPatternChar cs
    rw [htake, hdrop] at hr
    rcases hcase with ⟨hph, hr2⟩ | ⟨d, hph, hdne, hdc, hr2⟩
    · subst hph
      refine ⟨?_, by simp [data_asString], ?_, ?_, by simp⟩
      · simp only [PH.fullName, String.data_append, data_asString, data_colon,
          data_empty, List.append_nil]
        rw [← hr, hr2]
        simp [List.append_assoc]
      · intro c hc
        rw [data_asString] at hc
        exact List.mem_takeWhile_imp (htake ▸ hc)
      · intro al hal
        injection hal with hal'
        subst hal'
        exact ⟨by simpa [data_asString] using hane, by simpa [data_asString] using hac⟩
    · subst hph
      refine ⟨?_, by simp [data_asString], ?_, ?_, ?_⟩
      · simp only [PH.fullName, String.data_append, data_asString, data_colon,
          data_eqsign, data_empty, List.append_nil]
        rw [← hr, hr2]
        simp [List.append_assoc]
      · intro c hc
        rw [data_asString] at hc
        exact List.mem_takeWhile_imp (htake ▸ hc)
      · intro al hal
        injection hal with hal'
        subst hal'
        exact ⟨by simpa [data_asString] using hane, by simpa [data_asString] using hac⟩
      · intro dd hdd
        injection hdd with hdd'
        subst hdd'
        exact ⟨by simpa [data_asString] using hdne, by simpa [data_asString] using hdc⟩
  · exact absurd h (by simp)

/-- The parser recognizes `%{NAME}` for any nonempty class-fitting name. -/
theorem parseAfterBrace_pattern_only {name rest : List Char} (hne : name ≠ [])
    (hall : ∀ c ∈ name, isPatternChar c) :
    parseAfterBrace (name ++ '\x7d' :: rest) = some (⟨name.asString, none, none⟩, rest) := by
  cases name with
  | nil => exact absurd rfl hne
  | cons n0 n' =>
    have hnotp : ¬ isPatternChar '\x7d' = true := by decide
    simp only [parseAfterBrace]
    rw [List.takeWhile_append_of_pos hall, List.dropWhile_append_of_pos hall,
      List.takeWhile_cons_of_neg hnotp, List.dropWhile_cons_of_neg hnotp,
      List.append_nil]
    rfl

/-! ### Scanner lemmas -/

theorem findPH_cons_ne {c : Char} (hc : c ≠ '%') (rest : List Char) :
    findPH (c :: rest) = findPH rest := by
  rw [findPH.eq_def]
  split
  · rename_i heq
    simp at heq
  · rename_i rest2 heq
    injection heq with h1 h2
    exact absurd h1 hc
  · rename_i x hne heq
    injection heq with h1 h2
    subst h1
    subst h2
    rfl

theorem findPH_percent (rest2 : List Char) :
    findPH ('%' :: '\x7b' :: rest2) =
      match parseAfterBrace rest2 with
      | some (ph, _) => some ph
      | none => findPH ('\x7b' :: rest2) := rfl

theorem findPH_percent_ne {c2 : Char} (hc : c2 ≠ '\x7b') (rest2 : List Char) :
    findPH ('%' :: c2 :: rest2) = findPH (c2 :: rest2) := by
  rw [findPH.eq_def]
  split
  · rename_i heq
    simp at heq
  · rename_i x heq
    injection heq with h1 h2
    subst h2
    split
    · rename_i rest3 hp
      injection hp with h3 h4
      exact absurd h3 hc
    · rfl
  · rename_i x hne heq
    injection heq with h1 h2
    exact absurd h1.symm hne

theorem findPH_percent_nil : findPH ['%'] = none := rfl

theorem findPH_append_of_no_percent {a l : List Char} (h : ∀ c ∈ a, c ≠ '%') :
    findPH (a ++ l) = findPH l := by
  induction a with
  | nil => rfl
  | cons c t ih =>
    rw [List.cons_append, findPH_cons_ne (h c (List.mem_cons_self c t))]
    exact ih fun c hc => h c (List.mem_cons_of_mem _ hc)

/-- The scanner recognizes `%{NAME}` at the head. -/
theorem findPH_pattern_only {name rest : List Char} (hne : name ≠ [])
    (hall : ∀ c ∈ name, isPatternChar c) :
    findPH ('%' :: '\x7b' :: (name ++ '\x7d' :: rest)) =
      some ⟨name.asString, none, none⟩ := by
  rw [findPH_percent, parseAfterBrace_pattern_only hne hall]

/-- The leftmost match decomposes the scanned string at a literal
`%{` position with a successful parse of the tail. -/
theorem findPH_some_decomp {s : List Char} {ph : PH} (h : findPH s = some ph) :
    ∃ a rest2 rem, s = a ++ '%' :: '\x7b' :: rest2 ∧
      parseAfterBrace rest2 = some (ph, rem) := by
  induction s with
  | nil => exact absurd h (by simp [findPH])
  | cons c rest ih =>
    by_cases hc : c = '%'
    · subst hc
      cases rest with
      | nil => exact absurd h (by simp [findPH_percent_nil])
      | cons c2 rest2 =>
        by_cases hc2 : c2 = '\x7b'
        · subst hc2
          rw [findPH_percent] at h
          cases hp : parseAfterBrace rest2 with
          | some pr =>
            obtain ⟨ph', rem⟩ := pr
            rw [hp] at h
            injection h with h1
            subst h1
            exact ⟨[], rest2, rem, rfl, hp⟩
          | none =>
            rw [hp] at h
            obtain ⟨a, r2, rem, hseq, hpar⟩ := ih h
            exact ⟨'%' :: a, r2, rem, by rw [hseq]; rfl, hpar⟩
        · rw [findPH_percent_ne hc2] at h
          obtain ⟨a, r2, rem, hseq, hpar⟩ := ih h
          exact ⟨'%' :: a, r2, rem, by rw [hseq]; rfl, hpar⟩
    · rw [findPH_cons_ne hc] at h
      obtain ⟨a, r2, rem, hseq, hpar⟩ := ih h
      exact ⟨c :: a, r2, rem, by rw [hseq]; rfl, hpar⟩

/-- What a found placeholder guarantees about the scanned string: the
literal text `%{fullName}` occurs, and all capture groups fit their
character classes. -/
theorem findPH_some_key {s : List Char} {ph : PH} (h : findPH s = some ph) :
    ∃ a b, s = a ++ keyList ph.fullName ++ b ∧
      ph.pattern.data ≠ [] ∧ (∀ c ∈ ph.pattern.data, isPatternChar c) ∧
      (∀ al, ph.aliasOpt = some al → al.data ≠ [] ∧ ∀ c ∈ al.data, isAliasChar c) ∧
      (∀ d, ph.defOpt = some d → d.data ≠ [] ∧ ∀ c ∈ d.data, isDefChar c) := by
  obtain ⟨a, rest2, rem, hs, hp⟩ := findPH_some_decomp h
  obtain ⟨hdecomp, hpat, hpc, hal, hd⟩ := parseAfterBrace_sound hp
  refine ⟨a, rem, ?_, hpat, hpc, hal, hd⟩
  rw [hs, hdecomp]
  simp [keyList, List.append_assoc]

/-! ### Loop lemmas -/

theorem expandLoop_zero (w : Bool) (st : ExpState) :
    expandLoop w 0 st = (st, some Error.RecursionTooDeep) := rfl

/-- Case analysis on one pass of the expansion loop. -/
theorem expandLoop_succ_elim {w : Bool} {f : Nat} {st st' : ExpState}
    {r : Option Error} (h : expandLoop w (f + 1) st = (st', r)) :
    (findPH st.namedRegex = none ∧ st' = st ∧ r = none) ∨
    (∃ ph st2, findPH st.namedRegex = some ph ∧
      innerLoop w ph (keyList ph.fullName)
        (countOccs (keyList ph.fullName) (applyInline ph st).namedRegex)
        (applyInline ph st) = (st2, none) ∧
      expandLoop w f st2 = (st', r)) ∨
    (∃ ph st2 e, findPH st.namedRegex = some ph ∧
      innerLoop w ph (keyList ph.fullName)
        (countOccs (keyList ph.fullName) (applyInline ph st).namedRegex)
        (applyInline ph st) = (st2, some e) ∧ st' = st2 ∧ r = some e) := by
  rw [expandLoop] at h
  cases hf : findPH st.namedRegex with
  | none =>
    rw [hf] at h
    injection h with h1 h2
    exact Or.inl ⟨rfl, h1.symm, h2.symm⟩
  | some ph =>
    rw [hf] at h
    dsimp only at h
    cases hi : innerLoop w ph (keyList ph.fullName)
        (countOccs (keyList ph.fullName) (applyInline ph st).namedRegex)
        (applyInline ph st) with
    | mk st2 r2 =>
      cases r2 with
      | none =>
        rw [hi] at h
        exact Or.inr (Or.inl ⟨ph, st2, rfl, hi, h⟩)
      | some e =>
        rw [hi] at h
        injection h with h1 h2
        exact Or.inr (Or.inr ⟨ph, st2, e, rfl, hi, h1.symm, h2.symm⟩)

/-- Invariant preservation through the inner loop. -/
theorem innerLoop_invariant {P : ExpState → Prop} {w : Bool} {ph : PH}
    {key : List Char}
    (hstep : ∀ st d, lookupMap st.defs ph.pattern = some d → P st →
      P (innerStep w ph key d st)) :
    ∀ {n : Nat} {st st' : ExpState} {r : Option Error}, P st →
      innerLoop w ph key n st = (st', r) → P st' := by
  intro n
  induction n with
  | zero =>
    intro st st' r hP h
    rw [innerLoop] at h
    injection h with h1 h2
    subst h1
    exact hP
  | succ n ih =>
    intro st st' r hP h
    rw [innerLoop] at h
    cases hl : lookupMap st.defs ph.pattern with
    | none =>
      rw [hl] at h
      injection h with h1 h2
      subst h1
      exact hP
    | some d =>
      rw [hl] at h
      exact ih (hstep st d hl hP) h

/-- Invariant preservation through the expansion loop, pass by pass. -/
theorem expandLoop_invariant {P : ExpState → Prop} {w : Bool}
    (hpass : ∀ st ph st2 r2, findPH st.namedRegex = some ph → P st →
      innerLoop w ph (keyList ph.fullName)
        (countOccs (keyList ph.fullName) (applyInline ph st).namedRegex)
        (applyInline ph st) = (st2, r2) → P st2) :
    ∀ {f : Nat} {st st' : ExpState} {r : Option Error}, P st →
      expandLoop w f st = (st', r) → P st' := by
  intro f
  induction f with
  | zero =>
    intro st st' r hP h
    rw [expandLoop_zero] at h
    injection h with h1 h2
    subst h1
    exact hP
  | succ f ih =>
    intro st st' r hP h
    rcases expandLoop_succ_elim h with ⟨hf, hst, hr⟩ | ⟨ph, st2, hf, hi, hrec⟩ |
      ⟨ph, st2, e, hf, hi, hst, hr⟩
    · subst hst
      exact hP
    · exact ih (hpass st ph st2 none hf hP hi) hrec
    · subst hst
      exact hpass st ph _ (some e) hf hP hi

/-- A completed loop ended because no placeholder remained. -/
theorem expandLoop_ok_no_placeholder {w : Bool} :
    ∀ {f : Nat} {st st' : ExpState}, expandLoop w f st = (st', none) →
      findPH st'.namedRegex = none := by
  intro f
  induction f with
  | zero =>
    intro st st' h
    rw [expandLoop_zero] at h
    injection h with h1 h2
    exact absurd h2 (by simp)
  | succ f ih =>
    intro st st' h
    rcases expandLoop_succ_elim h with ⟨hf, hst, hr⟩ | ⟨ph, st2, hf, hi, hrec⟩ |
      ⟨ph, st2, e, hf, hi, hst, hr⟩
    · subst hst
      exact hf
    · exact ih hrec
    · exact absurd hr (by simp)

/-- Replaying a list of inline insertions over a base registry. -/
def applyInlines (g : List (String × String)) (l : List (String × String)) :
    List (String × String) :=
  l.foldl (fun m kv => mapInsert m kv.1 kv.2) g

/-- The value of the last inline definition recorded for a name, if any. -/
def lastInlineVal : List (String × String) → String → Option String
  | [], _ => none
  | kv :: t, k =>
    match lastInlineVal t k with
    | some d => some d
    | none => if kv.1 = k then some kv.2 else none

theorem lookup_applyInlines (g l : List (String × String)) (k : String) :
    lookupMap (applyInlines g l) k =
      match lastInlineVal l k with
      | some d => some d
      | none => lookupMap g k := by
  induction l generalizing g with
  | nil => rfl
  | cons kv t ih =>
    show lookupMap (applyInlines (mapInsert g kv.1 kv.2) t) k = _
    rw [ih]
    cases hl : lastInlineVal t k with
    | some d => simp [lastInlineVal, hl]
    | none =>
      simp only [lastInlineVal, hl]
      by_cases hk : kv.1 = k
      · subst hk
        simp [lookupMap_mapInsert_self]
      · rw [lookupMap_mapInsert_ne _ _ _ _ (fun hx => hk hx.symm)]
        simp [hk]

theorem innerStep_defs (w : Bool) (ph : PH) (key : List Char) (d : String)
    (st : ExpState) : (innerStep w ph key d st).defs = st.defs := rfl

theorem innerStep_inlines (w : Bool) (ph : PH) (key : List Char) (d : String)
    (st : ExpState) : (innerStep w ph key d st).inlines = st.inlines := rfl

/-- Through the whole loop the registry stays the replay of the recorded
inline insertions over the base registry. -/
theorem expandLoop_defs_track {w : Bool} {f : Nat} {st st' : ExpState}
    {r : Option Error} {g₀ : List (String × String)}
    (h : expandLoop w f st = (st', r)) (h0 : st.defs = applyInlines g₀ st.inlines) :
    st'.defs = applyInlines g₀ st'.inlines := by
  refine @expandLoop_invariant (fun s => s.defs = applyInlines g₀ s.inlines) w
    ?_ f st st' r h0 h
  intro st₀ ph st2 r2 hf hP hi
  refine @innerLoop_invariant (fun s => s.defs = applyInlines g₀ s.inlines) w ph
    (keyList ph.fullName) ?_ _ _ _ _ ?_ hi
  · intro st₁ d hl hP₁
    show st₁.defs = applyInlines g₀ st₁.inlines
    exact hP₁
  · cases hd : ph.defOpt with
    | none => simpa [applyInline, hd] using hP
    | some d =>
      simp only [applyInline, hd]
      show mapInsert st₀.defs ph.pattern d =
        applyInlines g₀ (st₀.inlines ++ [(ph.pattern, d)])
      rw [hP]
      simp [applyInlines, List.foldl_append]

/-! ### Decimal-representation character facts -/

theorem digitChar_isDigit {m : Nat} (h : m < 10) : (Nat.digitChar m).isDigit = true := by
  interval_cases m <;> decide

theorem toDigitsCore_digits :
    ∀ (f n : Nat) (ds : List Char), (∀ c ∈ ds, c.isDigit = true) →
      ∀ c ∈ Nat.toDigitsCore 10 f n ds, c.isDigit = true := by
  intro f
  induction f with
  | zero =>
    intro n ds hds
    simpa [Nat.toDigitsCore] using hds
  | succ f ih =>
    intro n ds hds c hc
    simp only [Nat.toDigitsCore] at hc
    split at hc
    · rcases List.mem_cons.1 hc with h1 | h1
      · subst h1
        exact digitChar_isDigit (Nat.mod_lt _ (by omega))
      · exact hds c h1
    · refine ih (n / 10) (Nat.digitChar (n % 10) :: ds) ?_ c hc
      intro c' hc'
      rcases List.mem_cons.1 hc' with h1 | h1
      · subst h1
        exact digitChar_isDigit (Nat.mod_lt _ (by omega))
      · exact hds c' h1

/-- Every character of a decimal numeral is a digit. -/
theorem repr_isDigit (n : Nat) : ∀ c ∈ (Nat.repr n).data, c.isDigit = true := by
  intro c hc
  exact toDigitsCore_digits (n + 1) n [] (by simp) c hc

/-- A digit is none of the delimiter characters the development cares
about. -/
theorem digit_excludes {c : Char} (h : c.isDigit = true) :
    c ≠ '%' ∧ c ≠ '(' ∧ c ≠ ')' ∧ c ≠ '\x7b' ∧ c ≠ '\x7d' ∧ c ≠ '=' ∧ c ≠ '<' ∧
      c ≠ '>' ∧ c ≠ '?' ∧ c ≠ ':' := by
  refine ⟨?_, ?_, ?_, ?_, ?_, ?_, ?_, ?_, ?_, ?_⟩ <;>
    first
      | exact fun he => absurd (he ▸ h) (by decide)

/-- Counting a `%`-headed key in a `%`-free string gives zero. -/
theorem countOccs_eq_zero {k : Char} {ks s : List Char} (h : ∀ c ∈ s, c ≠ k) :
    countOccs (k :: ks) s = 0 := by
  induction s with
  | nil => exact countOccs_nil _
  | cons c rest ih =>
    rw [countOccs_cons, if_neg ?_]
    · exact ih fun c' hc' => h c' (List.mem_cons_of_mem _ hc')
    · intro hp
      rw [List.isPrefixOf_iff_prefix, List.cons_prefix_cons] at hp
      exact h c (List.mem_cons_self _ _) hp.1.symm

/-- The replacement fragment for an alias-free placeholder is a `%`-free
wrapper around the definition body followed by a closing parenthesis. -/
theorem replacementOf_none_decomp (w : Bool) (p : String) (i : Nat) (d : String) :
    ∃ rpre, replacementOf w ⟨p, none, none⟩ i d = rpre ++ d.data ++ [')'] ∧
      ∀ c ∈ rpre, c ≠ '%' := by
  rw [replacementOf]
  cases w with
  | true =>
    refine ⟨['(', '?', ':'], ?_, by decide⟩
    simp [anonWrap, String.data_append]
  | false =>
    refine ⟨("(?P<name").data ++ (Nat.repr i).data ++ ['>'], ?_, ?_⟩
    · simp [namedWrap, String.data_append, List.append_assoc]
    · intro c hc
      rcases List.mem_append.1 hc with h1 | h1
      · rcases List.mem_append.1 h1 with h2 | h2
        · have hfix : ∀ c ∈ ("(?P<name").data, c ≠ '%' := by decide
          exact hfix c h2
        · exact (digit_excludes (repr_isDigit i c h2)).1
      · simp at h1
        subst h1
        decide

/-! ### Compile elimination -/

theorem compileFull_ok_elim {g : List (String × String)} {p : String} {w : Bool}
    {st : ExpState} (h : compileFull g p w = (st, none)) :
    expandLoop w MAX_RECURSION (initState g p) = (st, none) ∧ st.namedRegex ≠ [] := by
  rw [compileFull] at h
  cases he : expandLoop w MAX_RECURSION (initState g p) with
  | mk st₀ r₀ =>
    rw [he] at h
    cases r₀ with
    | some e =>
      dsimp only at h
      injection h with h1 h2
      exact absurd h2 (by simp)
    | none =>
      dsimp only at h
      by_cases hemp : st₀.namedRegex.isEmpty
      · rw [if_pos hemp] at h
        injection h with h1 h2
        exact absurd h2 (by simp)
      · rw [if_neg hemp] at h
        injection h with h1 h2
        subst h1
        refine ⟨rfl, ?_⟩
        simpa [List.isEmpty_iff] using hemp

/-- Whatever `compileFull` returns, its state is the expansion loop's final
state. -/
theorem compileFull_state {g : List (String × String)} {p : String} {w : Bool}
    {st : ExpState} {r : Option Error} (h : compileFull g p w = (st, r)) :
    ∃ r₀, expandLoop w MAX_RECURSION (initState g p) = (st, r₀) := by
  rw [compileFull] at h
  cases he : expandLoop w MAX_RECURSION (initState g p) with
  | mk st₀ r₀ =>
    rw [he] at h
    cases r₀ with
    | some e =>
      dsimp only at h
      injection h with h1 h2
      subst h1
      exact ⟨some e, rfl⟩
    | none =>
      dsimp only at h
      by_cases hemp : st₀.namedRegex.isEmpty
      · rw [if_pos hemp] at h
        injection h with h1 h2
        subst h1
        exact ⟨none, rfl⟩
      · rw [if_neg hemp] at h
        injection h with h1 h2
        subst h1
        exact ⟨none, rfl⟩

theorem compile_ok_elim {g : List (String × String)} {p : String} {w : Bool}
    {flat : List Char} {am : List (String × String)}
    (h : compile g p w = Except.ok (flat, am)) :
    ∃ st, compileFull g p w = (st, none) ∧ st.namedRegex = flat ∧ st.aliasMap = am := by
  rw [compile] at h
  cases hc : compileFull g p w with
  | mk st r =>
    rw [hc] at h
    cases r with
    | none =>
      injection h with h1
      injection h1 with h2 h3
      exact ⟨st, rfl, h2, h3⟩
    | some e => exact absurd h (by simp)

/-! ### Disjoint-occurrence certificates

`countOccs` counts greedily and non-overlappingly; to reason about counts
after a replacement, a certificate of `n` pairwise disjoint occurrences
lower-bounds the greedy count. -/

/-- A certificate that `s` contains `n` pairwise disjoint occurrences of
`key`, listed left to right. -/
inductive Disj (key : List Char) : List Char → Nat → Prop where
  | zero (s : List Char) : Disj key s 0
  | succ (s a b : List Char) (n : Nat) (hs : s = a ++ key ++ b)
      (hb : Disj key b n) : Disj key s (n + 1)

theorem Disj_prepend {key : List Char} (x : List Char) {b : List Char} {n : Nat}
    (h : Disj key b n) : Disj key (x ++ b) n := by
  cases h with
  | zero => exact Disj.zero _
  | succ s a b' m hs hb =>
    refine Disj.succ _ (x ++ a) b' m ?_ hb
    rw [hs]
    simp [List.append_assoc]

/-- The greedy count is itself a certificate. -/
theorem countOccs_toDisj {k : Char} {ks : List Char} :
    ∀ (len : Nat) (s : List Char), s.length ≤ len →
      Disj (k :: ks) s (countOccs (k :: ks) s) := by
  intro len
  induction len with
  | zero =>
    intro s hlen
    have hs : s = [] := List.eq_nil_of_length_eq_zero (Nat.le_zero.1 hlen)
    subst hs
    rw [countOccs_nil]
    exact Disj.zero _
  | succ len ih =>
    intro s hlen
    cases s with
    | nil =>
      rw [countOccs_nil]
      exact Disj.zero _
    | cons c rest =>
      rw [countOccs_cons]
      by_cases hp : (k :: ks).isPrefixOf (c :: rest) = true
      · rw [if_pos hp]
        obtain ⟨t, ht⟩ := isPrefixOf_iff_exists.1 hp
        have hdrop : (c :: rest).drop (k :: ks).length = t := by
          rw [ht, List.drop_left]
        rw [hdrop, Nat.add_comm]
        have hlt : t.length ≤ len := by
          have h1 := congrArg List.length ht
          simp [List.length_append, List.length_cons] at h1
          simp [List.length_cons] at hlen
          omega
        refine Disj.succ _ [] t _ ?_ (ih t hlt)
        simpa using ht
      · rw [if_neg hp]
        have hr : rest.length ≤ len := by
          simp [List.length_cons] at hlen
          omega
        exact Disj_prepend [c] (ih rest hr)

/-- Any certificate of disjoint occurrences lower-bounds the greedy count:
the greedy leftmost match ends earliest, so skipping it destroys at most one
certified occurrence. -/
theorem disj_le_countOccs {k : Char} {ks : List Char} :
    ∀ (len : Nat) (s : List Char), s.length ≤ len → ∀ (n : Nat),
      Disj (k :: ks) s n → n ≤ countOccs (k :: ks) s := by
  intro len
  induction len with
  | zero =>
    intro s hlen n h
    have hs : s = [] := List.eq_nil_of_length_eq_zero (Nat.le_zero.1 hlen)
    subst hs
    cases h with
    | zero => exact Nat.le_refl 0
    | succ s a b m hs hb => exact absurd hs (by simp)
  | succ len ih =>
    intro s hlen n h
    cases h with
    | zero => exact Nat.zero_le _
    | succ s a b m hs hb =>
      cases s with
      | nil => exact absurd hs (by simp)
      | cons c rest =>
        rw [countOccs_cons]
        by_cases hp : (k :: ks).isPrefixOf (c :: rest) = true
        · rw [if_pos hp]
          have hlt : ((c :: rest).drop (k :: ks).length).length ≤ len := by
            rw [List.length_drop]
            simp [List.length_cons] at hlen ⊢
            omega
          by_cases hal : (k :: ks).length ≤ a.length
          · have hd : (c :: rest).drop (k :: ks).length =
                a.drop (k :: ks).length ++ ((k :: ks) ++ b) := by
              rw [hs, List.append_assoc, List.drop_append_of_le_length hal]
            have hcert : Disj (k :: ks) ((c :: rest).drop (k :: ks).length)
                (m + 1) := by
              rw [hd]
              refine Disj.succ _ (a.drop (k :: ks).length) b m ?_ hb
              simp [List.append_assoc]
            have hle := ih _ hlt _ hcert
            omega
          · push_neg at hal
            have hd : (c :: rest).drop (k :: ks).length =
                (k :: ks).drop ((k :: ks).length - a.length) ++ b := by
              rw [hs, List.append_assoc, List.drop_append_eq_append_drop,
                List.drop_eq_nil_of_le (Nat.le_of_lt hal),
                List.drop_append_of_le_length (by omega), List.nil_append]
            have hcert : Disj (k :: ks) ((c :: rest).drop (k :: ks).length) m := by
              rw [hd]
              exact Disj_prepend _ hb
            have hle := ih _ hlt _ hcert
            omega
        · rw [if_neg hp]
          cases a with
          | nil =>
            exfalso
            apply hp
            rw [isPrefixOf_iff_exists]
            exact ⟨b, by simpa using hs⟩
          | cons a0 a' =>
            rw [List.cons_append, List.cons_append] at hs
            injection hs with h1 h2
            have hr : rest.length ≤ len := by
              simp [List.length_cons] at hlen
              omega
            exact ih rest hr (m + 1) (Disj.succ _ a' b m h2 hb)

/-- Prepending material never lowers the greedy occurrence count. -/
theorem countOccs_le_prepend {k : Char} {ks x b : List Char} :
    countOccs (k :: ks) b ≤ countOccs (k :: ks) (x ++ b) := by
  have hc : Disj (k :: ks) b (countOccs (k :: ks) b) :=
    countOccs_toDisj b.length b (Nat.le_refl _)
  exact disj_le_countOccs (x ++ b).length _ (Nat.le_refl _) _ (Disj_prepend x hc)

/-- Replacing a contiguous stretch preserves any occurrence of a pattern
whose head cannot occur in the stretch and which cannot contain the
stretch's head: such an occurrence lies wholly left or wholly right of the
stretch. -/
theorem occ_preserve {g0 k0 : Char} {grp' key' a b repl : List Char}
    (hgk : g0 ∉ k0 :: key') (hkg : k0 ∉ g0 :: grp')
    (hocc : occursIn (g0 :: grp') (a ++ (k0 :: key') ++ b)) :
    occursIn (g0 :: grp') (a ++ repl ++ b) := by
  obtain ⟨u, v, huv⟩ := hocc
  have h1 : a ++ ((k0 :: key') ++ b) = u ++ ((g0 :: grp') ++ v) := by
    simpa [List.append_assoc] using huv
  rcases List.append_eq_append_iff.1 h1 with ⟨w, hu, hkb⟩ | ⟨w, ha, hgv⟩
  · rcases List.append_eq_append_iff.1 hkb with ⟨x, hw, hb⟩ | ⟨x, hkey, hgvx⟩
    · refine ⟨a ++ repl ++ x, v, ?_⟩
      rw [hb]
      simp [List.append_assoc]
    · cases x with
      | nil =>
        rw [List.nil_append] at hgvx
        refine ⟨a ++ repl, v, ?_⟩
        rw [← hgvx]
        simp [List.append_assoc]
      | cons x0 x' =>
        exfalso
        rw [List.cons_append] at hgvx
        injection hgvx with h2 h3
        apply hgk
        rw [hkey, h2]
        simp
  · rcases List.append_eq_append_iff.1 hgv with ⟨y, hw, hv⟩ | ⟨y, hgrp, hkb2⟩
    · refine ⟨u, y ++ repl ++ b, ?_⟩
      rw [ha, hw]
      simp [List.append_assoc]
    · cases y with
      | nil =>
        rw [List.append_nil] at hgrp
        refine ⟨u, repl ++ b, ?_⟩
        rw [ha, ← hgrp]
        simp [List.append_assoc]
      | cons y0 y' =>
        exfalso
        rw [List.cons_append] at hkb2
        injection hkb2 with h2 h3
        apply hkg
        rw [hgrp, h2]
        simp

/-! ### Named-capture bookkeeping -/

theorem replacementOf_false (ph : PH) (i : Nat) (d : String) :
    replacementOf false ph i d = namedWrap i d := by
  simp [replacementOf]

theorem grpText_cons (v : String) :
    grpText v = '(' :: ('?' :: 'P' :: '<' :: (v.data ++ ['>'])) := by
  simp [grpText, String.data_append]

/-- The named wrapper opens exactly the capture group it is named after. -/
theorem namedWrap_eq (i : Nat) (d : String) :
    namedWrap i d = grpText ("name" ++ Nat.repr i) ++ (d.data ++ [')']) := by
  simp [namedWrap, grpText, String.data_append]

theorem name_val_no_percent (i : Nat) : '%' ∉ ("name" ++ Nat.repr i).data := by
  intro h
  rw [String.data_append] at h
  rcases List.mem_append.1 h with h1 | h1
  · exact absurd h1 (by decide)
  · exact absurd rfl (digit_excludes (repr_isDigit i '%' h1)).1

theorem percent_not_in_grpText {v : String} (hv : '%' ∉ v.data) :
    '%' ∉ '(' :: ('?' :: 'P' :: '<' :: (v.data ++ ['>'])) := by
  intro h
  simp only [List.mem_cons, List.mem_append, List.mem_singleton] at h
  rcases h with h | h | h | h | h | h
  · exact absurd h (by decide)
  · exact absurd h (by decide)
  · exact absurd h (by decide)
  · exact absurd h (by decide)
  · exact hv h
  · exact absurd h (by decide)

theorem name_val_no_brace (i : Nat) : '\x7d' ∉ ("name" ++ Nat.repr i).data := by
  intro h
  rw [String.data_append] at h
  rcases List.mem_append.1 h with h1 | h1
  · exact absurd h1 (by decide)
  · exact absurd rfl (digit_excludes (repr_isDigit i '\x7d' h1)).2.2.2.2.1

theorem brace_not_in_grpText {v : String} (hv : '\x7d' ∉ v.data) :
    '\x7d' ∉ '(' :: ('?' :: 'P' :: '<' :: (v.data ++ ['>'])) := by
  intro h
  simp only [List.mem_cons, List.mem_append, List.mem_singleton] at h
  rcases h with h | h | h | h | h | h
  · exact absurd h (by decide)
  · exact absurd h (by decide)
  · exact absurd h (by decide)
  · exact absurd h (by decide)
  · exact hv h
  · exact absurd h (by decide)

theorem eq_nil_or_append_singleton (r : List Char) :
    r = [] ∨ ∃ r' c, r = r' ++ [c] := by
  rcases List.eq_nil_or_concat r with h | ⟨r', c, h⟩
  · exact Or.inl h
  · rw [List.concat_eq_append] at h
    exact Or.inr ⟨r', c, h⟩

/-- A nonempty stretch not containing the final character of a
singleton-terminated list lies wholly before that final character. -/
theorem append_singleton_decomp {l p q r : List Char} {c : Char}
    (h : l ++ [c] = p ++ q ++ r) (hq : q ≠ []) (hc : c ∉ q) :
    ∃ r', r = r' ++ [c] ∧ l = p ++ q ++ r' := by
  rcases eq_nil_or_append_singleton r with rfl | ⟨r', cl, rfl⟩
  · exfalso
    rcases eq_nil_or_append_singleton q with rfl | ⟨q', ql, rfl⟩
    · exact hq rfl
    · have h' : l ++ [c] = (p ++ q') ++ [ql] := by
        rw [h]
        simp [List.append_assoc]
      have h2 := (List.append_inj' h' rfl).2
      injection h2 with hce _
      apply hc
      rw [hce]
      simp
  · have h' : l ++ [c] = (p ++ q ++ r') ++ [cl] := by
      rw [h]
      simp [List.append_assoc]
    obtain ⟨hl2, hc2⟩ := List.append_inj' h' rfl
    injection hc2 with hce _
    exact ⟨r', by rw [hce], hl2⟩

/-- When an occurrence begins inside the singleton-terminated span
`dd ++ \x7d`, a pattern free of the closing brace lies wholly inside `dd`,
so it recurs in any string embedding `dd`. -/
theorem occ_in_dd {g0 x0 : Char} {grp' x' z dd v b a rp rs : List Char}
    (hbr : '\x7d' ∉ g0 :: grp')
    (hdz : dd ++ ['\x7d'] = z ++ (x0 :: x'))
    (hgvx : (g0 :: grp') ++ v = (x0 :: x') ++ b) :
    occursIn (g0 :: grp') (a ++ (rp ++ dd ++ rs) ++ b) := by
  rcases List.append_eq_append_iff.1 hgvx with ⟨y, hxy, hv⟩ | ⟨y, hgy, hby⟩
  · have hdg' : dd ++ ['\x7d'] = z ++ (g0 :: grp') ++ y := by
      rw [hdz, hxy]
      simp [List.append_assoc]
    obtain ⟨y', hy, hdd2⟩ := append_singleton_decomp hdg' (by simp) hbr
    refine ⟨a ++ rp ++ z, y' ++ rs ++ b, ?_⟩
    rw [hdd2]
    simp [List.append_assoc]
  · exfalso
    rcases eq_nil_or_append_singleton x' with rfl | ⟨x'', xl, rfl⟩
    · have h2 := (List.append_inj' hdz rfl).2
      injection h2 with hbe _
      apply hbr
      rw [hgy, ← hbe]
      simp
    · have hdz' : dd ++ ['\x7d'] = (z ++ x0 :: x'') ++ [xl] := by
        rw [hdz]
        simp [List.append_assoc]
      have h2 := (List.append_inj' hdz' rfl).2
      injection h2 with hbe _
      apply hbr
      rw [hgy, ← hbe]
      simp

/-- Occurrence preservation through one key replacement, inline definitions
included: the key is a `%`-headed, parenthesis-free prefix followed by the
definition span `dd` and the closing brace; a pattern headed by a character
outside the prefix, containing neither `%` nor the closing brace, either
lies clear of the replaced occurrence or sits wholly inside `dd` — and the
replacement embeds `dd` again, so every occurrence survives. -/
theorem occ_preserve_inline {g0 : Char} {grp' kpre' dd rp rs a b : List Char}
    (hgk : g0 ∉ '%' :: kpre')
    (hkg : '%' ∉ g0 :: grp')
    (hbr : '\x7d' ∉ g0 :: grp')
    (hocc : occursIn (g0 :: grp') (a ++ (('%' :: kpre') ++ (dd ++ ['\x7d'])) ++ b)) :
    occursIn (g0 :: grp') (a ++ (rp ++ dd ++ rs) ++ b) := by
  obtain ⟨u, v, huv⟩ := hocc
  rw [List.append_assoc a (('%' :: kpre') ++ (dd ++ ['\x7d'])) b,
    List.append_assoc u (g0 :: grp') v] at huv
  rcases List.append_eq_append_iff.1 huv with ⟨w, hu, hkb⟩ | ⟨w, ha, hgv⟩
  · rcases List.append_eq_append_iff.1 hkb with ⟨x, hw, hb⟩ | ⟨x, hkey, hgvx⟩
    · refine ⟨a ++ (rp ++ dd ++ rs) ++ x, v, ?_⟩
      rw [hb]
      simp [List.append_assoc]
    · cases x with
      | nil =>
        rw [List.nil_append] at hgvx
        refine ⟨a ++ (rp ++ dd ++ rs), v, ?_⟩
        rw [← hgvx]
        simp [List.append_assoc]
      | cons x0 x' =>
        rcases List.append_eq_append_iff.1 hkey with ⟨z, hwz, hdz⟩ | ⟨z, hkz, hxz⟩
        · exact occ_in_dd hbr hdz hgvx
        · cases z with
          | nil =>
            rw [List.nil_append] at hxz
            exact occ_in_dd hbr (by rw [List.nil_append]; exact hxz.symm) hgvx
          | cons z0 z' =>
            exfalso
            rw [List.cons_append] at hxz
            injection hxz with he1 he2
            rw [List.cons_append] at hgvx
            injection hgvx with hg1 hg2
            apply hgk
            rw [hkz, hg1, he1]
            simp
  · rcases List.append_eq_append_iff.1 hgv with ⟨y, hw, hv⟩ | ⟨y, hgrp, hkb2⟩
    · refine ⟨u, y ++ (rp ++ dd ++ rs) ++ b, ?_⟩
      rw [ha, hw]
      simp [List.append_assoc]
    · cases y with
      | nil =>
        rw [List.append_nil] at hgrp
        refine ⟨u, (rp ++ dd ++ rs) ++ b, ?_⟩
        rw [ha, ← hgrp]
        simp [List.append_assoc]
      | cons y0 y' =>
        exfalso
        rw [List.cons_append] at hkb2
        injection hkb2 with he1 he2
        apply hkg
        rw [hgrp, ← he1]
        simp

/-- Without an inline definition, the textual key of a placeholder never
contains an opening parenthesis: its characters come from the `%`, brace and
name or alias classes only. -/
theorem paren_not_in_key {ph : PH} (hd : ph.defOpt = none)
    (hpc : ∀ c ∈ ph.pattern.data, isPatternChar c)
    (hal : ∀ al, ph.aliasOpt = some al → ∀ c ∈ al.data, isAliasChar c) :
    '(' ∉ keyList ph.fullName := by
  intro h
  cases ha : ph.aliasOpt with
  | none =>
    have hfn : keyList ph.fullName =
        '%' :: '\x7b' :: (ph.pattern.data ++ ['\x7d']) := by
      simp [keyList, PH.fullName, hd, ha, String.data_append]
    rw [hfn] at h
    rcases List.mem_cons.1 h with h | h
    · exact absurd h (by decide)
    rcases List.mem_cons.1 h with h | h
    · exact absurd h (by decide)
    rcases List.mem_append.1 h with h | h
    · exact absurd (hpc '(' h) (by decide)
    · exact absurd (List.mem_singleton.1 h) (by decide)
  | some al =>
    have hfn : keyList ph.fullName =
        '%' :: '\x7b' :: ((ph.pattern.data ++ ':' :: al.data) ++ ['\x7d']) := by
      simp [keyList, PH.fullName, hd, ha, String.data_append]
    rw [hfn] at h
    rcases List.mem_cons.1 h with h | h
    · exact absurd h (by decide)
    rcases List.mem_cons.1 h with h | h
    · exact absurd h (by decide)
    rcases List.mem_append.1 h with h | h
    · rcases List.mem_append.1 h with h | h
      · exact absurd (hpc '(' h) (by decide)
      · rcases List.mem_cons.1 h with h | h
        · exact absurd h (by decide)
        · exact absurd (hal al ha '(' h) (by decide)
    · exact absurd (List.mem_singleton.1 h) (by decide)

theorem innerLoop_inlines {w : Bool} {ph : PH} {key : List Char} {n : Nat}
    {st st' : ExpState} {r : Option Error}
    (h : innerLoop w ph key n st = (st', r)) : st'.inlines = st.inlines := by
  refine @innerLoop_invariant (fun s => s.inlines = st.inlines) w ph key ?_ n st st' r rfl h
  intro st₀ d hl hP
  rw [innerStep_inlines]
  exact hP

/-- The ghost list of processed inline definitions only ever grows. -/
theorem expandLoop_inlines_mono {w : Bool} {f : Nat} {st st' : ExpState}
    {r : Option Error} (h : expandLoop w f st = (st', r)) :
    ∃ l, st'.inlines = st.inlines ++ l := by
  refine @expandLoop_invariant (fun s => ∃ l, s.inlines = st.inlines ++ l) w ?_
    f st st' r ⟨[], by simp⟩ h
  intro st₀ ph st2 r2 hf hP hi
  obtain ⟨l, hl⟩ := hP
  rw [innerLoop_inlines hi]
  cases hdo : ph.defOpt with
  | none => exact ⟨l, by simpa [applyInline, hdo] using hl⟩
  | some d =>
    refine ⟨l ++ [(ph.pattern, d)], ?_⟩
    simp [applyInline, hdo, hl]

/-- Through the occurrence loop (suppression off), every alias-map value
keeps naming a group whose opening text occurs in the working string: the
key is a parenthesis-free prefix followed by the definition span `dd` and
the closing brace, the definition looked up stays equal to `dd`, and each
named wrapper re-embeds it. -/
theorem innerLoop_c1 {ph : PH} {kpre' dd : List Char}
    (hparen : '(' ∉ '%' :: kpre') :
    ∀ {n : Nat} {st st' : ExpState} {r : Option Error},
      innerLoop false ph (('%' :: kpre') ++ (dd ++ ['\x7d'])) n st = (st', r) →
      n ≤ countOccs (('%' :: kpre') ++ (dd ++ ['\x7d'])) st.namedRegex →
      (∀ d, lookupMap st.defs ph.pattern = some d → d.data = dd ∨ dd = []) →
      (∀ kv ∈ st.aliasMap, ('%' ∉ kv.2.data ∧ '\x7d' ∉ kv.2.data) ∧
        occursIn (grpText kv.2) st.namedRegex) →
      ∀ kv ∈ st'.aliasMap, ('%' ∉ kv.2.data ∧ '\x7d' ∉ kv.2.data) ∧
        occursIn (grpText kv.2) st'.namedRegex := by
  intro n
  induction n with
  | zero =>
    intro st st' r h hn hdd hP
    rw [innerLoop] at h
    injection h with h1 h2
    subst h1
    exact hP
  | succ n ih =>
    intro st st' r h hn hdd hP
    rw [innerLoop] at h
    cases hl : lookupMap st.defs ph.pattern with
    | none =>
      rw [hl] at h
      injection h with h1 h2
      subst h1
      exact hP
    | some d =>
      rw [hl] at h
      have h' : innerLoop false ph (('%' :: kpre') ++ (dd ++ ['\x7d'])) n
          (innerStep false ph (('%' :: kpre') ++ (dd ++ ['\x7d'])) d st) = (st', r) := h
      obtain ⟨m, hm⟩ :
          ∃ m, countOccs (('%' :: kpre') ++ (dd ++ ['\x7d'])) st.namedRegex = m + 1 :=
        ⟨countOccs (('%' :: kpre') ++ (dd ++ ['\x7d'])) st.namedRegex - 1, by omega⟩
      have hm' : countOccs ('%' :: (kpre' ++ (dd ++ ['\x7d']))) st.namedRegex = m + 1 :=
        hm
      obtain ⟨a, b, hsab, hnm, hcb, hrep⟩ := countOccs_succ_decomp hm'
      have hnew : (innerStep false ph (('%' :: kpre') ++ (dd ++ ['\x7d'])) d
          st).namedRegex = a ++ namedWrap st.index d ++ b := by
        show replaceFirst (('%' :: kpre') ++ (dd ++ ['\x7d']))
          (replacementOf false ph st.index d) st.namedRegex = _
        rw [replacementOf_false]
        exact hrep _
      refine ih h' ?_ hdd ?_
      · rw [hnew]
        calc n ≤ m := by omega
          _ = countOccs (('%' :: kpre') ++ (dd ++ ['\x7d'])) b := hcb.symm
          _ ≤ _ := countOccs_le_prepend
      · intro kv hkv
        rcases mem_mapInsert hkv with rfl | hold
        · refine ⟨⟨name_val_no_percent st.index, name_val_no_brace st.index⟩, ?_⟩
          rw [hnew, namedWrap_eq]
          refine ⟨a, d.data ++ [')'] ++ b, ?_⟩
          simp [List.append_assoc]
        · obtain ⟨hpv, hocc⟩ := hP kv hold
          refine ⟨hpv, ?_⟩
          rw [hnew]
          have hocc' : occursIn (grpText kv.2)
              (a ++ (('%' :: kpre') ++ (dd ++ ['\x7d'])) ++ b) := by
            rw [hsab] at hocc
            exact hocc
          rcases hdd d hl with hddq | hddnil
          · have hwrap : namedWrap st.index d =
                grpText ("name" ++ Nat.repr st.index) ++ dd ++ [')'] := by
              rw [namedWrap_eq, hddq]
              simp [List.append_assoc]
            rw [hwrap]
            rw [grpText_cons] at hocc' ⊢
            exact occ_preserve_inline hparen (percent_not_in_grpText hpv.1)
              (brace_not_in_grpText hpv.2) hocc'
          · subst hddnil
            have hwrap : namedWrap st.index d =
                namedWrap st.index d ++ [] ++ [] := by simp
            rw [hwrap]
            rw [grpText_cons] at hocc' ⊢
            exact occ_preserve_inline hparen (percent_not_in_grpText hpv.1)
              (brace_not_in_grpText hpv.2) hocc'

/-- Through the whole expansion (suppression off), every alias-map value
names a group whose opening text occurs in the working string — inline
definitions included, since a key's parenthesis can only lie in its
definition part and each replacement re-embeds the looked-up body. -/
theorem expandLoop_c1 {f : Nat} : ∀ {st st' : ExpState},
    expandLoop false f st = (st', none) →
    (∀ kv ∈ st.aliasMap, ('%' ∉ kv.2.data ∧ '\x7d' ∉ kv.2.data) ∧
      occursIn (grpText kv.2) st.namedRegex) →
    ∀ kv ∈ st'.aliasMap, ('%' ∉ kv.2.data ∧ '\x7d' ∉ kv.2.data) ∧
      occursIn (grpText kv.2) st'.namedRegex := by
  induction f with
  | zero =>
    intro st st' h hP
    rw [expandLoop_zero] at h
    injection h with h1 h2
    exact absurd h2 (by simp)
  | succ f ih =>
    intro st st' h hP
    rcases expandLoop_succ_elim h with ⟨hf, hst, _⟩ | ⟨ph, st2, hf, hi, hrec⟩ |
      ⟨ph, st2, e, hf, hi, hst, hr⟩
    · subst hst
      exact hP
    · obtain ⟨a0, b0, hsk, hpne, hpc, halc, hdc⟩ := findPH_some_key hf
      have hreg1 : (applyInline ph st).namedRegex = st.namedRegex := by
        cases hdo : ph.defOpt <;> simp [applyInline, hdo]
      have halias1 : (applyInline ph st).aliasMap = st.aliasMap := by
        cases hdo : ph.defOpt <;> simp [applyInline, hdo]
      have hP1 : ∀ kv ∈ (applyInline ph st).aliasMap,
          ('%' ∉ kv.2.data ∧ '\x7d' ∉ kv.2.data) ∧
          occursIn (grpText kv.2) (applyInline ph st).namedRegex := by
        intro kv hkv
        rw [hreg1]
        exact hP kv (halias1 ▸ hkv)
      cases hdo : ph.defOpt with
      | none =>
        have hparen : '(' ∉ keyList ph.fullName :=
          paren_not_in_key hdo hpc (fun al hal => (halc al hal).2)
        have hparen' : '(' ∉ '%' :: ('\x7b' :: ph.fullName.data) := by
          intro hmem
          apply hparen
          simp only [keyList, List.mem_cons, List.mem_append, List.mem_singleton]
          simp only [List.mem_cons] at hmem
          rcases hmem with h1 | h1 | h1
          · exact Or.inl h1
          · exact Or.inr (Or.inl h1)
          · exact Or.inr (Or.inr (Or.inl h1))
        have hkeyeq : keyList ph.fullName =
            ('%' :: ('\x7b' :: ph.fullName.data)) ++ ([] ++ ['\x7d']) := by
          simp [keyList]
        rw [hkeyeq] at hi
        exact ih hrec
          (innerLoop_c1 hparen' hi (Nat.le_refl _) (fun d _ => Or.inr rfl) hP1)
      | some D =>
        obtain ⟨np, hfneq, hnp⟩ :
            ∃ np, ph.fullName.data = np ++ '=' :: D.data ∧ '(' ∉ np := by
          cases ha : ph.aliasOpt with
          | none =>
            refine ⟨ph.pattern.data, ?_, ?_⟩
            · simp [PH.fullName, hdo, ha, String.data_append]
            · intro hm
              exact absurd (hpc '(' hm) (by decide)
          | some al =>
            refine ⟨ph.pattern.data ++ ':' :: al.data, ?_, ?_⟩
            · simp [PH.fullName, hdo, ha, String.data_append]
            · intro hm
              rcases List.mem_append.1 hm with hm | hm
              · exact absurd (hpc '(' hm) (by decide)
              · rcases List.mem_cons.1 hm with hm | hm
                · exact absurd hm (by decide)
                · exact absurd ((halc al ha).2 '(' hm) (by decide)
        have hkeyeq : keyList ph.fullName =
            ('%' :: ('\x7b' :: (np ++ ['=']))) ++ (D.data ++ ['\x7d']) := by
          simp [keyList, hfneq, List.append_assoc]
        have hparen' : '(' ∉ '%' :: ('\x7b' :: (np ++ ['='])) := by
          intro hmem
          simp only [List.mem_cons, List.mem_append, List.mem_singleton] at hmem
          rcases hmem with h1 | h1 | h1 | h1
          · exact absurd h1 (by decide)
          · exact absurd h1 (by decide)
          · exact hnp h1
          · exact absurd h1 (by decide)
        have hlk : lookupMap (applyInline ph st).defs ph.pattern = some D := by
          have hd1 : (applyInline ph st).defs = mapInsert st.defs ph.pattern D := by
            simp [applyInline, hdo]
          rw [hd1]
          exact lookupMap_mapInsert_self st.defs ph.pattern D
        have hdd : ∀ d, lookupMap (applyInline ph st).defs ph.pattern = some d →
            d.data = D.data ∨ D.data = [] := by
          intro d hld
          rw [hlk] at hld
          injection hld with hde
          exact Or.inl (by rw [hde])
        rw [hkeyeq] at hi
        exact ih hrec (innerLoop_c1 hparen' hi (Nat.le_refl _) hdd hP1)
    · exact absurd hr (by simp)

/-- Generic invariant: every alias-map value is `name<i>` for some index `i`
below the running counter. -/
theorem aliasMap_values_shape {w : Bool} {f : Nat} {st st' : ExpState}
    {r : Option Error} (h : expandLoop w f st = (st', r))
    (h0 : ∀ kv ∈ st.aliasMap, ∃ i, i < st.index ∧ kv.2 = "name" ++ Nat.repr i) :
    ∀ kv ∈ st'.aliasMap, ∃ i, i < st'.index ∧ kv.2 = "name" ++ Nat.repr i := by
  refine @expandLoop_invariant
    (fun s => ∀ kv ∈ s.aliasMap, ∃ i, i < s.index ∧ kv.2 = "name" ++ Nat.repr i)
    w ?_ f st st' r h0 h
  intro st₀ ph st2 r2 hf hP hi
  refine @innerLoop_invariant
    (fun s => ∀ kv ∈ s.aliasMap, ∃ i, i < s.index ∧ kv.2 = "name" ++ Nat.repr i)
    w ph (keyList ph.fullName) ?_ _ _ _ _ ?_ hi
  · intro st₁ d hl hP₁ kv hkv
    rcases mem_mapInsert hkv with rfl | hold
    · exact ⟨st₁.index, Nat.lt_succ_self _, rfl⟩
    · obtain ⟨i, hi', hv⟩ := hP₁ kv hold
      exact ⟨i, Nat.lt_succ_of_lt hi', hv⟩
  · cases hdo : ph.defOpt with
    | none => simpa [applyInline, hdo] using hP
    | some d => simpa [applyInline, hdo] using hP

/-! ### Capture-group counting -/

theorem gc_cons_eq (c : Char) (t : List Char) :
    groupCount (c :: t) = groupOpensAt (c :: t) + groupCount t := rfl

theorem groupOpensAt_ne_paren {c : Char} (hc : c ≠ '(') (rest : List Char) :
    groupOpensAt (c :: rest) = 0 := by
  have h : ('(' == c) = false := beq_eq_false_iff_ne.2 (Ne.symm hc)
  simp [groupOpensAt, List.isPrefixOf, h]

/-- The group-opening test at a position only looks four characters ahead,
and neither `%` nor `(` can complete a window begun to its left, so the
count at positions of a prefix is unchanged when a continuation headed by
`%` is exchanged for one headed by `(`. -/
theorem groupOpensAt_switch (c : Char) (x yt yt' : List Char) :
    groupOpensAt (c :: (x ++ '%' :: yt)) = groupOpensAt (c :: (x ++ '(' :: yt')) := by
  rcases x with _ | ⟨c2, _ | ⟨c3, _ | ⟨c4, r⟩⟩⟩ <;>
    simp [groupOpensAt, List.isPrefixOf]

theorem gc_switch (yt yt' : List Char) :
    ∀ (x : List Char),
      groupCount (x ++ '%' :: yt) + groupCount ('(' :: yt') =
      groupCount (x ++ '(' :: yt') + groupCount ('%' :: yt) := by
  intro x
  induction x with
  | nil =>
    rw [List.nil_append, List.nil_append]
    exact Nat.add_comm _ _
  | cons c t ih =>
    rw [List.cons_append, List.cons_append]
    show groupOpensAt (c :: (t ++ '%' :: yt)) + groupCount (t ++ '%' :: yt) +
        groupCount ('(' :: yt') =
      groupOpensAt (c :: (t ++ '(' :: yt')) + groupCount (t ++ '(' :: yt') +
        groupCount ('%' :: yt)
    rw [groupOpensAt_switch c t yt yt']
    omega

theorem gc_append_no_paren (b : List Char) :
    ∀ (x : List Char), '(' ∉ x → groupCount (x ++ b) = groupCount b := by
  intro x
  induction x with
  | nil =>
    intro _
    rfl
  | cons c t ih =>
    intro hx
    rw [List.cons_append, gc_cons_eq,
      groupOpensAt_ne_paren (fun hceq => hx (List.mem_cons.2 (Or.inl hceq.symm))),
      ih (fun hm => hx (List.mem_cons_of_mem _ hm)), Nat.zero_add]

theorem namedWrap_cons (i : Nat) (d : String) :
    namedWrap i d = '(' :: ('?' :: 'P' :: '<' ::
      (("name" ++ Nat.repr i).data ++ '>' :: (d.data ++ [')']))) := by
  simp [namedWrap, String.data_append]

theorem anonWrap_cons (d : String) :
    anonWrap d = '(' :: ('?' :: ':' :: (d.data ++ [')'])) := by
  simp [anonWrap, String.data_append]

theorem paren_not_in_nametail (i : Nat) {d : String} (hd : '(' ∉ d.data) :
    '(' ∉ '?' :: 'P' :: '<' ::
      (("name" ++ Nat.repr i).data ++ '>' :: (d.data ++ [')'])) := by
  intro h
  rcases List.mem_cons.1 h with h | h
  · exact absurd h (by decide)
  rcases List.mem_cons.1 h with h | h
  · exact absurd h (by decide)
  rcases List.mem_cons.1 h with h | h
  · exact absurd h (by decide)
  rcases List.mem_append.1 h with h | h
  · rw [String.data_append] at h
    rcases List.mem_append.1 h with h | h
    · exact absurd h (by decide)
    · exact absurd rfl (digit_excludes (repr_isDigit i '(' h)).2.1
  rcases List.mem_cons.1 h with h | h
  · exact absurd h (by decide)
  rcases List.mem_append.1 h with h | h
  · exact hd h
  · exact absurd (List.mem_singleton.1 h) (by decide)

theorem paren_not_in_anontail {d : String} (hd : '(' ∉ d.data) :
    '(' ∉ '?' :: ':' :: (d.data ++ [')']) := by
  intro h
  rcases List.mem_cons.1 h with h | h
  · exact absurd h (by decide)
  rcases List.mem_cons.1 h with h | h
  · exact absurd h (by decide)
  rcases List.mem_append.1 h with h | h
  · exact hd h
  · exact absurd (List.mem_singleton.1 h) (by decide)

/-- A named wrapper around a parenthesis-free body opens exactly one
capture group. -/
theorem gc_namedWrap (i : Nat) {d : String} (hd : '(' ∉ d.data) (b : List Char) :
    groupCount (namedWrap i d ++ b) = 1 + groupCount b := by
  rw [namedWrap_cons, List.cons_append, gc_cons_eq]
  have hopen : groupOpensAt ('(' :: (('?' :: 'P' :: '<' ::
      (("name" ++ Nat.repr i).data ++ '>' :: (d.data ++ [')']))) ++ b)) = 1 := rfl
  rw [hopen, gc_append_no_paren b _ (paren_not_in_nametail i hd)]

/-- A non-capturing wrapper around a parenthesis-free body opens no capture
group. -/
theorem gc_anonWrap {d : String} (hd : '(' ∉ d.data) (b : List Char) :
    groupCount (anonWrap d ++ b) = groupCount b := by
  rw [anonWrap_cons, List.cons_append, gc_cons_eq]
  have hopen : groupOpensAt ('(' :: (('?' :: ':' ::
      (d.data ++ [')'])) ++ b)) = 0 := rfl
  rw [hopen, gc_append_no_paren b _ (paren_not_in_anontail hd), Nat.zero_add]

/-- Replacing one parenthesis-free key occurrence by a named wrapper raises
the group count by exactly one. -/
theorem gc_step_named (a b key' : List Char) (i : Nat) {d : String}
    (hd : '(' ∉ d.data) (hkp : '(' ∉ '%' :: key') :
    groupCount (a ++ namedWrap i d ++ b) =
      groupCount (a ++ ('%' :: key') ++ b) + 1 := by
  have hs := gc_switch (key' ++ b) (('?' :: 'P' :: '<' ::
    (("name" ++ Nat.repr i).data ++ '>' :: (d.data ++ [')']))) ++ b) a
  have h1 : a ++ ('%' :: key') ++ b = a ++ '%' :: (key' ++ b) := by
    simp [List.append_assoc]
  have h2 : a ++ namedWrap i d ++ b = a ++ '(' :: (('?' :: 'P' :: '<' ::
      (("name" ++ Nat.repr i).data ++ '>' :: (d.data ++ [')']))) ++ b) := by
    rw [namedWrap_cons]
    simp [List.append_assoc]
  have h3 : groupCount ('(' :: (('?' :: 'P' :: '<' ::
      (("name" ++ Nat.repr i).data ++ '>' :: (d.data ++ [')']))) ++ b)) =
      1 + groupCount b := by
    rw [← List.cons_append, ← namedWrap_cons]
    exact gc_namedWrap i hd b
  have h4 : groupCount ('%' :: (key' ++ b)) = groupCount b := by
    rw [← List.cons_append]
    exact gc_append_no_paren b _ hkp
  rw [h3, h4, ← h1, ← h2] at hs
  omega

/-- Replacing one parenthesis-free key occurrence by a non-capturing wrapper
keeps the group count unchanged. -/
theorem gc_step_anon (a b key' : List Char) {d : String}
    (hd : '(' ∉ d.data) (hkp : '(' ∉ '%' :: key') :
    groupCount (a ++ anonWrap d ++ b) =
      groupCount (a ++ ('%' :: key') ++ b) := by
  have hs := gc_switch (key' ++ b) (('?' :: ':' :: (d.data ++ [')'])) ++ b) a
  have h1 : a ++ ('%' :: key') ++ b = a ++ '%' :: (key' ++ b) := by
    simp [List.append_assoc]
  have h2 : a ++ anonWrap d ++ b = a ++ '(' :: (('?' :: ':' ::
      (d.data ++ [')'])) ++ b) := by
    rw [anonWrap_cons]
    simp [List.append_assoc]
  have h3 : groupCount ('(' :: (('?' :: ':' :: (d.data ++ [')'])) ++ b)) =
      groupCount b := by
    rw [← List.cons_append, ← anonWrap_cons]
    exact gc_anonWrap hd b
  have h4 : groupCount ('%' :: (key' ++ b)) = groupCount b := by
    rw [← List.cons_append]
    exact gc_append_no_paren b _ hkp
  rw [h3, h4, ← h1, ← h2] at hs
  omega

theorem innerLoop_defs {w : Bool} {ph : PH} {key : List Char} {n : Nat}
    {st st' : ExpState} {r : Option Error}
    (h : innerLoop w ph key n st = (st', r)) : st'.defs = st.defs := by
  refine @innerLoop_invariant (fun s => s.defs = st.defs) w ph key ?_ n st st' r rfl h
  intro st₀ d hl hP
  rw [innerStep_defs]
  exact hP

/-- Through the occurrence loop under suppression, with parenthesis-free
definitions and key, the working string's capture-group count tracks the
number of alias-carrying occurrences processed. -/
theorem innerLoop_c5 {ph : PH} {key' : List Char} (hparen : '(' ∉ '%' :: key') :
    ∀ {n : Nat} {st st' : ExpState} {r : Option Error},
      innerLoop true ph ('%' :: key') n st = (st', r) →
      n ≤ countOccs ('%' :: key') st.namedRegex →
      (∀ kv ∈ st.defs, '(' ∉ kv.2.data) →
      groupCount st.namedRegex = st.aliasedProcessed →
      groupCount st'.namedRegex = st'.aliasedProcessed := by
  intro n
  induction n with
  | zero =>
    intro st st' r h hn hdefs hP
    rw [innerLoop] at h
    injection h with h1 h2
    subst h1
    exact hP
  | succ n ih =>
    intro st st' r h hn hdefs hP
    rw [innerLoop] at h
    cases hl : lookupMap st.defs ph.pattern with
    | none =>
      rw [hl] at h
      injection h with h1 h2
      subst h1
      exact hP
    | some d =>
      rw [hl] at h
      have h' : innerLoop true ph ('%' :: key') n
          (innerStep true ph ('%' :: key') d st) = (st', r) := h
      have hdp : '(' ∉ d.data := hdefs (ph.pattern, d) (lookupMap_mem hl)
      obtain ⟨m, hm⟩ : ∃ m, countOccs ('%' :: key') st.namedRegex = m + 1 :=
        ⟨countOccs ('%' :: key') st.namedRegex - 1, by omega⟩
      obtain ⟨a, b, hsab, hnm, hcb, hrep⟩ := countOccs_succ_decomp hm
      have hnew : (innerStep true ph ('%' :: key') d st).namedRegex =
          a ++ replacementOf true ph st.index d ++ b :=
        hrep _
      refine ih h' ?_ hdefs ?_
      · rw [hnew]
        calc n ≤ m := by omega
          _ = countOccs ('%' :: key') b := hcb.symm
          _ ≤ _ := countOccs_le_prepend
      · have hold : groupCount (a ++ ('%' :: key') ++ b) = st.aliasedProcessed := by
          rw [← hsab]
          exact hP
        rw [hnew]
        cases halias : ph.aliasOpt with
        | some al =>
          have hw : replacementOf true ph st.index d = namedWrap st.index d := by
            simp [replacementOf, halias]
          have hap : (innerStep true ph ('%' :: key') d st).aliasedProcessed =
              st.aliasedProcessed + 1 := by
            simp [innerStep, halias]
          rw [hw, hap, gc_step_named a b key' st.index hdp hparen, hold]
        | none =>
          have hw : replacementOf true ph st.index d = anonWrap d := by
            simp [replacementOf, halias]
          have hap : (innerStep true ph ('%' :: key') d st).aliasedProcessed =
              st.aliasedProcessed := by
            simp [innerStep, halias]
          rw [hw, hap, gc_step_anon a b key' hdp hparen, hold]

/-- Through the whole expansion under suppression (no inline definitions
processed, parenthesis-free registry), the capture-group count of the
working string equals the number of alias-carrying occurrences processed. -/
theorem expandLoop_c5 {f : Nat} : ∀ {st st' : ExpState},
    expandLoop true f st = (st', none) → st'.inlines = [] →
    (∀ kv ∈ st.defs, '(' ∉ kv.2.data) →
    groupCount st.namedRegex = st.aliasedProcessed →
    groupCount st'.namedRegex = st'.aliasedProcessed := by
  induction f with
  | zero =>
    intro st st' h hin hdefs hP
    rw [expandLoop_zero] at h
    injection h with h1 h2
    exact absurd h2 (by simp)
  | succ f ih =>
    intro st st' h hin hdefs hP
    rcases expandLoop_succ_elim h with ⟨hf, hst, _⟩ | ⟨ph, st2, hf, hi, hrec⟩ |
      ⟨ph, st2, e, hf, hi, hst, hr⟩
    · subst hst
      exact hP
    · obtain ⟨l, hl⟩ := expandLoop_inlines_mono hrec
      rw [hin] at hl
      have h2in : st2.inlines = [] := (List.append_eq_nil.1 hl.symm).1
      have h1in : (applyInline ph st).inlines = [] := by
        rw [← innerLoop_inlines hi]
        exact h2in
      have hdo : ph.defOpt = none := by
        cases hdo : ph.defOpt with
        | none => rfl
        | some d => simp [applyInline, hdo] at h1in
      have happ : applyInline ph st = st := by
        rw [applyInline, hdo]
      obtain ⟨a0, b0, hsk, hpne, hpc, halc, hdc⟩ := findPH_some_key hf
      have hparen : '(' ∉ keyList ph.fullName :=
        paren_not_in_key hdo hpc (fun al hal => (halc al hal).2)
      have hkeyform : keyList ph.fullName =
          '%' :: ('\x7b' :: (ph.fullName.data ++ ['\x7d'])) := rfl
      rw [happ, hkeyform] at hi
      have hparen' : '(' ∉ '%' :: ('\x7b' :: (ph.fullName.data ++ ['\x7d'])) := by
        rw [← hkeyform]
        exact hparen
      have hdefs2 : ∀ kv ∈ st2.defs, '(' ∉ kv.2.data := by
        rw [innerLoop_defs hi]
        exact hdefs
      exact ih hrec hin hdefs2 (innerLoop_c5 hparen' hi (Nat.le_refl _) hdefs hP)
    · exact absurd hr (by simp)

theorem matchesLen_eq (l : List Char) : matchesLen l = groupCount l := by
  show 1 + groupCount l - 1 = groupCount l
  omega

/-! ### Claims -/

/-- C2: for every registry, every user pattern, and both values of
`with_alias_only`, if compile returns success then the resulting flat regex
contains no substring matched by the placeholder meta-regex — the
meta-regex scanner finds nothing in it, so every placeholder occurrence has
been rewritten away. -/
theorem c2_substitution_completeness (g : List (String × String)) (p : String)
    (w : Bool) (flat : List Char) (am : List (String × String))
    (h : compile g p w = Except.ok (flat, am)) : findPH flat = none := by
  obtain ⟨st, hful, hflat, _⟩ := compile_ok_elim h
  obtain ⟨hexp, _⟩ := compileFull_ok_elim hful
  rw [← hflat]
  exact expandLoop_ok_no_placeholder hexp

/-- C2 witness: a concrete successful compile whose flat regex the scanner
finds no placeholder in. -/
theorem c2_substitution_completeness_witness :
    findPH ("(?P<name0>[a-zA-Z0-9._-]+)").data = none :=
  c2_substitution_completeness [("USERNAME", "[a-zA-Z0-9._-]+")] "%{USERNAME}"
    false (("(?P<name0>[a-zA-Z0-9._-]+)").data) [("USERNAME", "name0")] (by decide)

/-- C8: match-result lookup never produces a compilation-taxonomy error:
`get` returns the captured substring exactly when both the alias-map lookup
and the engine's named-capture lookup succeed, and absent when either lookup
fails (the engine's captures are the abstract function `captures`;
`match_against` itself returns an `Option`, never an `Error`). -/
theorem c8_get_characterization (am : List (String × String))
    (captures : String → Option String) (k : String) :
    (∀ real, lookupMap am k = some real → Matches.get am captures k = captures real) ∧
    (lookupMap am k = none → Matches.get am captures k = none) := by
  constructor
  · intro real hl
    simp only [Matches.get, hl]
  · intro hl
    simp only [Matches.get, hl]

/-- C8 witness: a concrete two-stage lookup through `get`. -/
theorem c8_get_characterization_witness :
    Matches.get [("usr", "name0")]
      (fun real => if real = "name0" then some "root" else none) "usr" = some "root" := by
  have h := (c8_get_characterization [("usr", "name0")]
    (fun real => if real = "name0" then some "root" else none) "usr").1 "name0" (by decide)
  simpa using h

/-- C10: compile is deterministic: two contexts whose registries are equal
as maps (same sorted `BTreeMap` contents) yield identical outcomes for the
same pattern and flag — the same flat regex and alias map on success, the
same error on failure. -/
theorem c10_deterministic (g₁ g₂ : List (String × String)) (p : String) (w : Bool)
    (h₁ : sortedKeys g₁) (h₂ : sortedKeys g₂)
    (h : ∀ k, lookupMap g₁ k = lookupMap g₂ k) :
    compileFull g₁ p w = compileFull g₂ p w ∧ compile g₁ p w = compile g₂ p w := by
  have hg := sorted_lookup_ext h₁ h₂ h
  rw [hg]
  exact ⟨rfl, rfl⟩

/-- C10 witness. -/
theorem c10_deterministic_witness :
    compileFull [("A", "a")] "%{A}" false = compileFull [("A", "a")] "%{A}" false ∧
    compile [("A", "a")] "%{A}" false = compile [("A", "a")] "%{A}" false :=
  c10_deterministic [("A", "a")] [("A", "a")] "%{A}" false
    (by simp [sortedKeys]) (by simp [sortedKeys]) (fun k => rfl)

/-- C9: for every compile call, succeeding or failing, in which no
placeholder processed during expansion carried an inline definition (the
ghost `inlines` record is empty), the definition registry after compile
equals the registry before the call. -/
theorem c9_registry_frame (g : List (String × String)) (p : String) (w : Bool)
    (st : ExpState) (r : Option Error) (h : compileFull g p w = (st, r))
    (hni : st.inlines = []) : st.defs = g := by
  obtain ⟨r₀, he⟩ := compileFull_state h
  have htrack := expandLoop_defs_track he
    (show (initState g p).defs = applyInlines g (initState g p).inlines from rfl)
  rw [htrack, hni]
  rfl

/-- C9 witness: a compile without inline definitions leaves the registry
untouched. -/
theorem c9_registry_frame_witness :
    ((compileFull [("USERNAME", "x")] "%{USERNAME}" false).1).defs =
      [("USERNAME", "x")] :=
  c9_registry_frame [("USERNAME", "x")] "%{USERNAME}" false
    (compileFull [("USERNAME", "x")] "%{USERNAME}" false).1
    (compileFull [("USERNAME", "x")] "%{USERNAME}" false).2 rfl (by decide)

/-- C6 counterexample: compiling `%{A=x}%{A=y}` processes the placeholder
`%{A=x}`, inserting `A → x` (recorded by the ghost `inlines`), yet after
compile returns the registry maps `A` to `y`: the entry `A → x` did not
remain. -/
theorem c6_inline_counterexample :
    ("A", "x") ∈ (compileFull [] "%{A=x}%{A=y}" false).1.inlines ∧
    lookupMap (compileFull [] "%{A=x}%{A=y}" false).1.defs "A" = some "y" ∧
    ("y" : String) ≠ "x" := by
  refine ⟨by decide, by decide, by decide⟩

/-- C6 amended: a placeholder with inline definition `D` under `NAME`
inserts `NAME → D` at the moment it is processed, overwriting any prior
entry and leaving other names untouched; after compile returns, the
registry is the initial registry overlaid by the processed inline
definitions in order, so `NAME` maps to the **last** inline definition
processed for it (or keeps its original binding when none was). -/
theorem c6_inline_definitions_amended :
    (∀ (ph : PH) (st : ExpState) (d : String), ph.defOpt = some d →
      lookupMap (applyInline ph st).defs ph.pattern = some d ∧
      (∀ k, k ≠ ph.pattern →
        lookupMap (applyInline ph st).defs k = lookupMap st.defs k)) ∧
    (∀ (g : List (String × String)) (p : String) (w : Bool) (st : ExpState)
      (r : Option Error), compileFull g p w = (st, r) → ∀ k,
      lookupMap st.defs k =
        match lastInlineVal st.inlines k with
        | some d => some d
        | none => lookupMap g k) := by
  constructor
  · intro ph st d hd
    constructor
    · simp only [applyInline, hd]
      exact lookupMap_mapInsert_self st.defs ph.pattern d
    · intro k hk
      simp only [applyInline, hd]
      exact lookupMap_mapInsert_ne st.defs ph.pattern d k hk
  · intro g p w st r h k
    obtain ⟨r₀, he⟩ := compileFull_state h
    have htrack := expandLoop_defs_track he
      (show (initState g p).defs = applyInlines g (initState g p).inlines from rfl)
    rw [htrack, lookup_applyInlines]

/-- C6 amended witness: a single inline definition ends up in the final
registry as described. -/
theorem c6_inline_definitions_amended_witness :
    lookupMap (compileFull [] "%{A=x}" false).1.defs "A" =
      (match lastInlineVal (compileFull [] "%{A=x}" false).1.inlines "A" with
       | some d => some d
       | none => lookupMap [] "A") :=
  c6_inline_definitions_amended.2 [] "%{A=x}" false
    (compileFull [] "%{A=x}" false).1 (compileFull [] "%{A=x}" false).2 rfl "A"

/-- C4: whenever the expansion loop reaches (finds leftmost) a placeholder
without inline definition whose name is absent from the registry at that
moment, the pass returns `DefinitionNotFound` with that name and an
unchanged state; concretely, compiling `%{UNKNOWN}` against the empty
registry fails with `DefinitionNotFound "UNKNOWN"`. -/
theorem c4_definition_not_found :
    (∀ (w : Bool) (fuel : Nat) (st : ExpState) (ph : PH),
      findPH st.namedRegex = some ph → ph.defOpt = none →
      lookupMap st.defs ph.pattern = none →
      expandLoop w (fuel + 1) st = (st, some (Error.DefinitionNotFound ph.pattern))) ∧
    compile [] "%{UNKNOWN}" false = Except.error (Error.DefinitionNotFound "UNKNOWN") := by
  constructor
  · intro w fuel st ph hf hd hl
    have hinline : applyInline ph st = st := by simp [applyInline, hd]
    obtain ⟨a, b, hs, _, _, _, _⟩ := findPH_some_key hf
    have hpos : 0 < countOccs (keyList ph.fullName) st.namedRegex := by
      rw [hs]
      exact countOccs_pos
    rw [expandLoop, hf]
    dsimp only
    rw [hinline]
    cases hn : countOccs (keyList ph.fullName) st.namedRegex with
    | zero =>
      rw [hn] at hpos
      exact absurd hpos (by omega)
    | succ m =>
      rw [innerLoop, hl]
  · decide

/-- C4 witness: the universal statement applied at the concrete
`%{UNKNOWN}` state. -/
theorem c4_definition_not_found_witness :
    expandLoop false 1024 (initState [] "%{UNKNOWN}") =
      (initState [] "%{UNKNOWN}", some (Error.DefinitionNotFound "UNKNOWN")) :=
  c4_definition_not_found.1 false 1023 (initState [] "%{UNKNOWN}")
    ⟨"UNKNOWN", none, none⟩ (by decide) rfl rfl

/-- C5 counterexample: with suppression on, compiling the aliased
placeholder `%A:al` against the registry `A → (x)` succeeds, yet the match
length is 2 while the source pattern holds a single aliased placeholder —
the parenthesis inside the definition body opens an extra capture group. -/
theorem c5_len_counterexample :
    compile [("A", "(x)")] "%\x7bA:al\x7d" true =
      Except.ok (("(?P<name0>(x))").data, [("al", "name0")]) ∧
    matchesLen ("(?P<name0>(x))").data = 2 ∧
    aliasedCount "%\x7bA:al\x7d" = 1 := by
  decide

/-- C5: what does hold — with suppression on, when no inline definition is
processed, every registry value is parenthesis-free and the user pattern is
parenthesis-free, the match-result length of a successful compile equals the
number of alias-carrying occurrences processed during expansion: aliased
occurrences are the only source of capture groups in the flat regex. -/
theorem c5_len_amended (g : List (String × String)) (p : String) (st : ExpState)
    (h : compileFull g p true = (st, none)) (hin : st.inlines = [])
    (hg : ∀ kv ∈ g, '(' ∉ kv.2.data) (hp : '(' ∉ p.data) :
    matchesLen st.namedRegex = st.aliasedProcessed := by
  obtain ⟨hexp, hne⟩ := compileFull_ok_elim h
  rw [matchesLen_eq]
  refine expandLoop_c5 hexp hin hg ?_
  show groupCount p.data = 0
  have h0 := gc_append_no_paren [] p.data hp
  rw [List.append_nil] at h0
  exact h0

/-- Witness: the amended theorem applied to the successful suppressed
compile of `%A:al` against the registry `A → x`. -/
theorem c5_len_amended_witness : matchesLen ("(?P<name0>x)").data = 1 :=
  c5_len_amended [("A", "x")] "%\x7bA:al\x7d"
    ⟨("(?P<name0>x)").data, [("al", "name0")], 1, [("A", "x")], [], 1⟩
    (by decide) rfl (by decide) (by decide)

/-- C1 counterexample: compiling `%A%A` (two copies of the same
placeholder) succeeds with both `name0` and `name1` groups in the flat regex
but the alias map holding only the value `name1` — the second occurrence's
insert overwrites the first, so `name0` names a group absent from the value
set; and with suppression on, `%A` without an alias compiles to a
non-capturing group while the alias entry `A → name0` is still inserted, so
the value `name0` names no group of the flat regex at all. -/
theorem c1_alias_values_counterexample :
    (compile [("A", "a")] "%\x7bA\x7d%\x7bA\x7d" false =
      Except.ok (("(?P<name0>a)(?P<name1>a)").data, [("A", "name1")]) ∧
     captureNames ("(?P<name0>a)(?P<name1>a)").data = ["name0", "name1"]) ∧
    (compile [("A", "a")] "%\x7bA\x7d" true =
      Except.ok (("(?:a)").data, [("A", "name0")]) ∧
     captureNames ("(?:a)").data = []) := by
  decide

/-- C1: what does hold of the returned alias map — every value is of the
form `name<i>` with `i` below the final occurrence counter; and when
suppression is off, every value names a capture group whose opening text
`(?P<name<i>>` occurs in the flat regex, inline definitions included. The
values need not cover all groups of the flat regex, and under suppression a
value may name no group. -/
theorem c1_alias_values_amended (g : List (String × String)) (p : String)
    (w : Bool) (st : ExpState) (h : compileFull g p w = (st, none)) :
    (∀ kv ∈ st.aliasMap, ∃ i, i < st.index ∧ kv.2 = "name" ++ Nat.repr i) ∧
    (w = false → ∀ kv ∈ st.aliasMap, occursIn (grpText kv.2) st.namedRegex) := by
  obtain ⟨hexp, hne⟩ := compileFull_ok_elim h
  constructor
  · refine aliasMap_values_shape hexp ?_
    intro kv hkv
    exact absurd hkv (by simp [initState])
  · intro hw
    subst hw
    intro kv hkv
    exact (expandLoop_c1 hexp
      (fun kv hkv => absurd hkv (by simp [initState])) kv hkv).2

/-- Witness: the amended theorem applied to the successful compile of `%A`
against the registry `A → a`. -/
theorem c1_alias_values_amended_witness :
    (∀ kv ∈ [("A", "name0")], ∃ i, i < 1 ∧ kv.2 = "name" ++ Nat.repr i) ∧
    (∀ kv ∈ [("A", "name0")],
      occursIn (grpText kv.2) ("(?P<name0>a)").data) := by
  have h := c1_alias_values_amended [("A", "a")] "%\x7bA\x7d" false
    ⟨("(?P<name0>a)").data, [("A", "name0")], 1, [("A", "a")], [], 0⟩ (by decide)
  exact ⟨h.1, h.2 rfl⟩

/-- C7 counterexample: the scanner recognizes the token with name part
consisting of the single character underscore as a placeholder, yet the
underscore is neither a letter nor a digit: the name class of the meta-regex
is the range `[A-z0-9]`, not the alphanumeric class. -/
theorem c7_name_class_counterexample :
    findPH ("%\x7b_\x7d").data = some ⟨"_", none, none⟩ ∧
    ('_'.isAlpha || '_'.isDigit) = false := by
  decide

/-- C7: the name part of a recognized placeholder is exactly a nonempty
string over the class `[A-z0-9]` (the `isPatternChar` predicate, which
besides letters and digits also contains the six ASCII characters lying
between `Z` and `a`): every token with a nonempty `[A-z0-9]` name followed
by the closing brace is recognized with precisely that name, and conversely
every recognized placeholder's name is nonempty and drawn from that class. -/
theorem c7_name_class_amended :
    (∀ (name rest : List Char), name ≠ [] → (∀ c ∈ name, isPatternChar c) →
      findPH ('%' :: '\x7b' :: (name ++ '\x7d' :: rest)) =
        some ⟨name.asString, none, none⟩) ∧
    (∀ (s : List Char) (ph : PH), findPH s = some ph →
      ph.pattern.data ≠ [] ∧ ∀ c ∈ ph.pattern.data, isPatternChar c) := by
  constructor
  · intro name rest hne hall
    exact findPH_pattern_only hne hall
  · intro s ph h
    obtain ⟨a, b, _, hpat, hpc, _, _⟩ := findPH_some_key h
    exact ⟨hpat, hpc⟩

/-- Witness: the theorem applied to the concrete name `a1`. -/
theorem c7_name_class_amended_witness :
    findPH ('%' :: '\x7b' :: (['a', '1'] ++ '\x7d' :: [])) =
      some ⟨(['a', '1']).asString, none, none⟩ :=
  c7_name_class_amended.1 ['a', '1'] [] (by decide) (by decide)

/-- Expansion on the two-definition cycle `A → %{B}`, `B → %{A}` never
terminates on its own: from any state whose working string holds exactly one
placeholder (`%{A}` or `%{B}`) between `%`-free stretches, every fuel value
ends in `RecursionTooDeep`. -/
theorem cycle_stuck (w : Bool) :
    ∀ (fuel : Nat) (st : ExpState) (pre suf name oname : List Char),
      st.defs = [("A", "%\x7bB\x7d"), ("B", "%\x7bA\x7d")] →
      ((name = ['A'] ∧ oname = ['B']) ∨ (name = ['B'] ∧ oname = ['A'])) →
      st.namedRegex = pre ++ ('%' :: '\x7b' :: (name ++ '\x7d' :: suf)) →
      (∀ c ∈ pre, c ≠ '%') → (∀ c ∈ suf, c ≠ '%') →
      (expandLoop w fuel st).2 = some Error.RecursionTooDeep := by
  intro fuel
  induction fuel with
  | zero =>
    intro st pre suf name oname _ _ _ _ _
    rw [expandLoop_zero]
  | succ fuel ih =>
    intro st pre suf name oname hdefs hno hregex hpre hsuf
    have hne : name ≠ [] := by
      rcases hno with ⟨h, _⟩ | ⟨h, _⟩ <;> simp [h]
    have hall : ∀ c ∈ name, isPatternChar c = true := by
      rcases hno with ⟨h, _⟩ | ⟨h, _⟩ <;> (subst h; decide)
    have hfind : findPH st.namedRegex = some ⟨name.asString, none, none⟩ := by
      rw [hregex, findPH_append_of_no_percent hpre, findPH_pattern_only hne hall]
    have hkeyeq : keyList (PH.fullName ⟨name.asString, none, none⟩) =
        '%' :: '\x7b' :: (name ++ ['\x7d']) := by
      simp [keyList, PH.fullName, String.data_append, data_asString, data_empty]
    have hassoc : st.namedRegex =
        pre ++ (('%' :: '\x7b' :: (name ++ ['\x7d'])) ++ suf) := by
      rw [hregex]
      simp [List.append_assoc]
    have hnm : noMatchBefore ('%' :: '\x7b' :: (name ++ ['\x7d'])) pre
        (('%' :: '\x7b' :: (name ++ ['\x7d'])) ++ suf) := noMatchBefore_of_head_ne hpre
    have hcount : countOccs ('%' :: '\x7b' :: (name ++ ['\x7d'])) st.namedRegex = 0 + 1 := by
      rw [hassoc, countOccs_append_of_noMatch hnm, countOccs_self_append,
        countOccs_eq_zero hsuf]
    have hlook : lookupMap st.defs ((⟨name.asString, none, none⟩ : PH).pattern) =
        some (('%' :: '\x7b' :: (oname ++ ['\x7d'])).asString) := by
      rw [hdefs]
      rcases hno with ⟨h1, h2⟩ | ⟨h1, h2⟩ <;> (subst h1; subst h2; decide)
    obtain ⟨rpre, hrepl, hrpre⟩ := replacementOf_none_decomp w (name.asString) st.index
      (('%' :: '\x7b' :: (oname ++ ['\x7d'])).asString)
    have hreplace : replaceFirst ('%' :: '\x7b' :: (name ++ ['\x7d']))
        (rpre ++ (('%' :: '\x7b' :: (oname ++ ['\x7d'])).asString).data ++ [')'])
        st.namedRegex =
        (pre ++ rpre) ++ ('%' :: '\x7b' :: (oname ++ '\x7d' :: (')' :: suf))) := by
      rw [hassoc, replaceFirst_append_of_noMatch hnm, replaceFirst_self_append]
      simp [data_asString, List.append_assoc]
    rw [expandLoop, hfind]
    dsimp only
    rw [show applyInline ⟨name.asString, none, none⟩ st = st from rfl]
    rw [hkeyeq, hcount, innerLoop, hlook]
    dsimp only
    rw [innerLoop]
    dsimp only
    refine ih (innerStep w ⟨name.asString, none, none⟩
        ('%' :: '\x7b' :: (name ++ ['\x7d']))
        (('%' :: '\x7b' :: (oname ++ ['\x7d'])).asString) st)
      (pre ++ rpre) (')' :: suf) oname name ?_ ?_ ?_ ?_ ?_
    · rw [innerStep_defs]
      exact hdefs
    · rcases hno with ⟨h1, h2⟩ | ⟨h1, h2⟩
      · subst h1
        subst h2
        exact Or.inr ⟨rfl, rfl⟩
      · subst h1
        subst h2
        exact Or.inl ⟨rfl, rfl⟩
    · show replaceFirst _
        (replacementOf w ⟨name.asString, none, none⟩ st.index _) st.namedRegex = _
      rw [hrepl, hreplace]
    · intro c hc
      rcases List.mem_append.1 hc with h1 | h1
      · exact hpre c h1
      · exact hrpre c h1
    · intro c hc
      rcases List.mem_cons.1 hc with h1 | h1
      · subst h1
        decide
      · exact hsuf c h1

/-- C3: every pass first checks the fuel counter, so with the counter
exhausted compile fails with `RecursionTooDeep` whatever the state (first
conjunct: the loop performs at most the configured number of passes); and on
the registry `A → %{B}`, `B → %{A}`, compiling `%{A}` terminates with the
`RecursionTooDeep` error (second conjunct). -/
theorem c3_recursion_bound :
    (∀ (w : Bool) (st : ExpState),
      expandLoop w 0 st = (st, some Error.RecursionTooDeep)) ∧
    compile [("A", "%\x7bB\x7d"), ("B", "%\x7bA\x7d")] "%\x7bA\x7d" false =
      Except.error Error.RecursionTooDeep := by
  constructor
  · intro w st
    exact expandLoop_zero w st
  · have h := cycle_stuck false MAX_RECURSION
      (initState [("A", "%\x7bB\x7d"), ("B", "%\x7bA\x7d")] "%\x7bA\x7d")
      [] [] ['A'] ['B'] rfl (Or.inl ⟨rfl, rfl⟩) (by decide) (by decide) (by decide)
    rw [compile, compileFull]
    cases he : expandLoop false MAX_RECURSION
        (initState [("A", "%\x7bB\x7d"), ("B", "%\x7bA\x7d")] "%\x7bA\x7d") with
    | mk st r =>
      rw [he] at h
      dsimp only at h
      subst h
      rfl

end Grok

